import Mathlib

/-!
Verification of the `autocuber` backend core: a shallow embedding of the
cube permutation algebra (`group.rs`, `permute.rs`, `cube.rs`), the
signature-indexed sequence graph and Dijkstra solver (`intuitive.rs`), the
algorithmic solver (`algorithmic.rs`) and the Roux driver (`roux.rs`),
together with theorems settling the specification claims.

Conventions of the embedding:
* Rust arrays indexed by `Enumerable` indices become Lean functions on the
  carrier type (the index round-trip `from_index (index x) = x` is elided).
* `CyclicGroup<K>` becomes `Fin K` with its modular addition; the source's
  `CyclicGroup::new (v)` wraps modulo `K` exactly as `Fin` literals do.
* `HashMap` values become association lists; iteration order of a hash map
  is unspecified in Rust, the embedding fixes the insertion order.
* Code that panics is modelled with `Option`: `none` is a panic.
* A few items of the crate are referenced from the sources in `src/` but
  defined in a module that is not part of `src/` (the `CornerType`
  enumeration and the `MoveSequence` trait implementations `op`, `inverse`,
  `canonicalise`, `Ord`).  Those are modelled from the spec and marked
  `Modelled from the spec:` in their doc comments.
-/

set_option maxRecDepth 20000

/-- Faces of the cube, in the source's enumeration order `F R U B L D`
(`cube.rs`, `FaceType`). -/
inductive FaceType : Type where
  | F | R | U | B | L | D
deriving DecidableEq, Fintype

/-- The twelve edge positions, in the source's enumeration order
(`cube.rs`, `EdgeType`): `UR UF UL UB DR DF DL DB FR FL BR BL`. -/
inductive EdgeType : Type where
  | UR | UF | UL | UB | DR | DF | DL | DB | FR | FL | BR | BL
deriving DecidableEq, Fintype

/-- Modelled from the spec: the eight corner positions.  The `CornerType`
enumeration is referenced by `permute.rs` but its defining module is not in
`src/`; the enumeration order `FUR FUL FDR FDL BUR BUL BDR BDL` is the one
under which the hard-coded cycle tables of `permute.rs` realise the
4-cycles stated in their comments. -/
inductive CornerType : Type where
  | FUR | FUL | FDR | FDL | BUR | BUL | BDR | BDL
deriving DecidableEq, Fintype

/-- The three axes of the cube (`cube.rs`, `Axis`). -/
inductive Axis : Type where
  | FB | RL | UD
deriving DecidableEq, Fintype

/-- Rotation kinds (`cube.rs`, `RotationType`). -/
inductive RotationType : Type where
  | Normal | Double | Inverse
deriving DecidableEq, Fintype

/-- Inverse of a rotation (`cube.rs`, `RotationType::inverse`). -/
def RotationType.inverse : RotationType → RotationType
  | .Normal => .Inverse
  | .Double => .Double
  | .Inverse => .Normal

/-- A move: all slices from `start_depth` to `end_depth` (exclusive) of the
given axis are turned (`cube.rs`, `Move`). -/
structure Move : Type where
  axis : Axis
  rotation : RotationType
  start_depth : ℕ
  end_depth : ℕ
deriving DecidableEq

/-- An ordered list of moves, in written order (`cube.rs`, `MoveSequence`). -/
structure MoveSequence : Type where
  moves : List Move
deriving DecidableEq

/-- Modelled from the spec: the inverse of a single move keeps the slab and
inverts the rotation ("inverse turns by the group inverse", spec 4.2). -/
def Move.inverse (m : Move) : Move :=
  { m with rotation := m.rotation.inverse }

/-- Modelled from the spec: `MoveSequence` inverse.  Spec 4.4 requires the
stored `inverse (m)` to be a sequence whose permutation is the group
inverse of the permutation of `m`; with the reverse-order composition
convention of spec 3 this is the reversed list of inverted moves. -/
def MoveSequence.inverse (s : MoveSequence) : MoveSequence :=
  ⟨(s.moves.map Move.inverse).reverse⟩

/-- Modelled from the spec: the magma operation on move sequences follows
the group convention of spec 3 ("the permutation associated with R F equals
P_F after P_R"), so `a.op b` is the written sequence "b then a":
`(a.op b).moves = b.moves ++ a.moves`.  This matches both uses in the
source: the doubled generator `m.op m` of `intuitive.rs` and the composite
`post.op alg` ("q · a") of `algorithmic.rs`. -/
def MoveSequence.op (a b : MoveSequence) : MoveSequence :=
  ⟨b.moves ++ a.moves⟩

/-- Modelled from the spec: `canonicalise` normalises a move sequence to a
representative of its class; the spec (Glossary, 9) leaves the normal form
open and lets callers depend only on idempotence and cost-invariance, so
the model uses the coarsest choice, the identity map. -/
def MoveSequence.canonicalise (s : MoveSequence) : MoveSequence := s

/-- Mirror of `group.rs` `Enumerable`: a carrier with its fixed complete
duplicate-free enumeration list. -/
class Enumerable (α : Type) : Type where
  enumerate : List α
  complete : ∀ x : α, x ∈ enumerate
  nodup : enumerate.Nodup

instance : Enumerable FaceType where
  enumerate := [.F, .R, .U, .B, .L, .D]
  complete := by intro x; cases x <;> decide
  nodup := by decide

instance : Enumerable EdgeType where
  enumerate := [.UR, .UF, .UL, .UB, .DR, .DF, .DL, .DB, .FR, .FL, .BR, .BL]
  complete := by intro x; cases x <;> decide
  nodup := by decide

instance : Enumerable CornerType where
  enumerate := [.FUR, .FUL, .FDR, .FDL, .BUR, .BUL, .BDR, .BDL]
  complete := by intro x; cases x <;> decide
  nodup := by decide

/-- Mirror of `group.rs` `SymmetricGroup<S>`: the image array `map` (the
value at index `i` is the image of the `i`-th carrier element) is
represented as a function on the carrier. -/
structure SymmetricGroup (α : Type) : Type where
  map : α → α

instance {α : Type} [Fintype α] [DecidableEq α] : DecidableEq (SymmetricGroup α) :=
  fun a b =>
    decidable_of_iff (a.map = b.map) (by cases a; cases b; simp)

namespace SymmetricGroup

variable {α : Type}

/-- Composition of permutations (`group.rs`, `impl Magma for SymmetricGroup`):
`(self.op other).map = other.map.map (|x| self.map[x.index()])`. -/
def op (a b : SymmetricGroup α) : SymmetricGroup α :=
  ⟨fun x => a.map (b.map x)⟩

/-- The identity map (`group.rs`, `Default`/`Unital` for `SymmetricGroup`). -/
def identity : SymmetricGroup α :=
  ⟨fun x => x⟩

/-- Inverse (`group.rs`, `InverseSemigroup for SymmetricGroup`): the source
writes `inv[map[i].index()] = from_index (i)` into an uninitialised array;
the embedding searches the enumeration for the preimage.  On non-bijective
maps the source leaves entries uninitialised; the embedding returns the
queried point there. -/
def inverse [DecidableEq α] [Enumerable α] (a : SymmetricGroup α) : SymmetricGroup α :=
  ⟨fun y =>
    match (Enumerable.enumerate (α := α)).find? (fun i => a.map i = y) with
    | some i => i
    | none => y⟩

/-- Left action (`group.rs`, `GroupAction for SymmetricGroup`). -/
def act (a : SymmetricGroup α) (s : α) : α :=
  a.map s

/-- The data-model invariant of spec 3: the image array is a bijection. -/
def WF (a : SymmetricGroup α) : Prop :=
  Function.Bijective a.map

instance {a : SymmetricGroup α} [Fintype α] [DecidableEq α] : Decidable a.WF := by
  unfold WF; infer_instance

end SymmetricGroup

/-- Mirror of `group.rs` `OrientedSymmetricGroup<S, K>` (the wreath product
`S_T wr Z_K`): the array of `(image, twist)` pairs becomes a function into
`α × Fin k`. -/
structure OrientedSymmetricGroup (α : Type) (k : ℕ) [NeZero k] : Type where
  map : α → α × Fin k

instance {α : Type} {k : ℕ} [NeZero k] [Fintype α] [DecidableEq α] :
    DecidableEq (OrientedSymmetricGroup α k) :=
  fun a b =>
    decidable_of_iff (a.map = b.map) (by cases a; cases b; simp)

namespace OrientedSymmetricGroup

variable {α : Type} {k : ℕ} [NeZero k]

/-- Composition (`group.rs`, `impl Magma for OrientedSymmetricGroup`): at
each point take `(s, r)` from `other`, then `(s2, r2) = self.map[s]`, and
return `(s2, r.op r2)`. -/
def op (a b : OrientedSymmetricGroup α k) : OrientedSymmetricGroup α k :=
  ⟨fun x =>
    let sr := b.map x
    let sr2 := a.map sr.1
    (sr2.1, sr.2 + sr2.2)⟩

/-- Identity: each point maps to itself with twist zero. -/
def identity : OrientedSymmetricGroup α k :=
  ⟨fun x => (x, 0)⟩

/-- Inverse (`group.rs`): at `map[i].image` the source stores
`(from_index i, map[i].twist.inverse())`; the embedding searches the
enumeration for the preimage position. -/
def inverse [DecidableEq α] [Enumerable α] (a : OrientedSymmetricGroup α k) :
    OrientedSymmetricGroup α k :=
  ⟨fun y =>
    match (Enumerable.enumerate (α := α)).find? (fun i => (a.map i).1 = y) with
    | some i => (i, -(a.map i).2)
    | none => (y, 0)⟩

/-- Left action on an oriented point (`group.rs`, `GroupAction`): with
`(s2, r2) = map[s]` the action sends `(s, r)` to `(s2, r + r2)`. -/
def act (a : OrientedSymmetricGroup α k) (p : α × Fin k) : α × Fin k :=
  ((a.map p.1).1, p.2 + (a.map p.1).2)

/-- Action by the inverse (`group.rs`, `GroupAction::unact`). -/
def unact [DecidableEq α] [Enumerable α] (a : OrientedSymmetricGroup α k)
    (p : α × Fin k) : α × Fin k :=
  a.inverse.act p

/-- The data-model invariant of spec 3: the underlying position map is a
bijection (orientations carry freely). -/
def WF (a : OrientedSymmetricGroup α k) : Prop :=
  Function.Bijective (fun x => (a.map x).1)

instance {a : OrientedSymmetricGroup α k} [Fintype α] [DecidableEq α] :
    Decidable a.WF := by
  unfold WF; infer_instance

end OrientedSymmetricGroup

/-- `permute.rs`: the centre permutation group (centre orientation ignored).
The `CentreCubelet` newtype wrapper around `FaceType` is flattened. -/
abbrev CentrePermutation := SymmetricGroup FaceType

/-- `permute.rs`: the oriented edge permutation group (flip in `Z_2`).
The `EdgeCubelet` newtype wrapper around `EdgeType` is flattened. -/
abbrev EdgePermutation := OrientedSymmetricGroup EdgeType 2

/-- `permute.rs`: the oriented corner permutation group (twist in `Z_3`).
The `CornerCubelet` newtype wrapper around `CornerType` is flattened. -/
abbrev CornerPermutation := OrientedSymmetricGroup CornerType 3

/-- Centre table of `permute.rs` `CentrePermutation::from_normal_slice_turn`:
the clockwise slice turn about each axis (`FB => S`, `RL => M'`, `UD => E'`). -/
def CentrePermutation.from_normal_slice_turn : Axis → CentrePermutation
  | .FB => ⟨fun x => match x with
      | .F => .F | .R => .D | .U => .R | .B => .B | .L => .U | .D => .L⟩
  | .RL => ⟨fun x => match x with
      | .F => .U | .R => .R | .U => .B | .B => .D | .L => .L | .D => .F⟩
  | .UD => ⟨fun x => match x with
      | .F => .L | .R => .F | .U => .U | .B => .R | .L => .B | .D => .D⟩

/-- `permute.rs` `CentrePermutation::from_slice_turn`. -/
def CentrePermutation.from_slice_turn (axis : Axis) (rt : RotationType) :
    CentrePermutation :=
  let s := CentrePermutation.from_normal_slice_turn axis
  match rt with
  | .Normal => s
  | .Double => s.op s
  | .Inverse => s.inverse

/-- Edge tables of `permute.rs` `EdgePermutation::from_normal_face_turn`. -/
def EdgePermutation.from_normal_face_turn : FaceType → EdgePermutation
  | .F => ⟨fun x => match x with
      | .UR => (.UR, 0) | .UF => (.FR, 1) | .UL => (.UL, 0) | .UB => (.UB, 0)
      | .DR => (.DR, 0) | .DF => (.FL, 1) | .DL => (.DL, 0) | .DB => (.DB, 0)
      | .FR => (.DF, 1) | .FL => (.UF, 1) | .BR => (.BR, 0) | .BL => (.BL, 0)⟩
  | .R => ⟨fun x => match x with
      | .UR => (.BR, 0) | .UF => (.UF, 0) | .UL => (.UL, 0) | .UB => (.UB, 0)
      | .DR => (.FR, 0) | .DF => (.DF, 0) | .DL => (.DL, 0) | .DB => (.DB, 0)
      | .FR => (.UR, 0) | .FL => (.FL, 0) | .BR => (.DR, 0) | .BL => (.BL, 0)⟩
  | .U => ⟨fun x => match x with
      | .UR => (.UF, 0) | .UF => (.UL, 0) | .UL => (.UB, 0) | .UB => (.UR, 0)
      | .DR => (.DR, 0) | .DF => (.DF, 0) | .DL => (.DL, 0) | .DB => (.DB, 0)
      | .FR => (.FR, 0) | .FL => (.FL, 0) | .BR => (.BR, 0) | .BL => (.BL, 0)⟩
  | .B => ⟨fun x => match x with
      | .UR => (.UR, 0) | .UF => (.UF, 0) | .UL => (.UL, 0) | .UB => (.BL, 1)
      | .DR => (.DR, 0) | .DF => (.DF, 0) | .DL => (.DL, 0) | .DB => (.BR, 1)
      | .FR => (.FR, 0) | .FL => (.FL, 0) | .BR => (.UB, 1) | .BL => (.DB, 1)⟩
  | .L => ⟨fun x => match x with
      | .UR => (.UR, 0) | .UF => (.UF, 0) | .UL => (.FL, 0) | .UB => (.UB, 0)
      | .DR => (.DR, 0) | .DF => (.DF, 0) | .DL => (.BL, 0) | .DB => (.DB, 0)
      | .FR => (.FR, 0) | .FL => (.DL, 0) | .BR => (.BR, 0) | .BL => (.UL, 0)⟩
  | .D => ⟨fun x => match x with
      | .UR => (.UR, 0) | .UF => (.UF, 0) | .UL => (.UL, 0) | .UB => (.UB, 0)
      | .DR => (.DB, 0) | .DF => (.DR, 0) | .DL => (.DF, 0) | .DB => (.DL, 0)
      | .FR => (.FR, 0) | .FL => (.FL, 0) | .BR => (.BR, 0) | .BL => (.BL, 0)⟩

/-- `permute.rs` `EdgePermutation::from_face_turn`. -/
def EdgePermutation.from_face_turn (face : FaceType) (rt : RotationType) :
    EdgePermutation :=
  let s := EdgePermutation.from_normal_face_turn face
  match rt with
  | .Normal => s
  | .Double => s.op s
  | .Inverse => s.inverse

/-- Edge tables of `permute.rs` `EdgePermutation::from_normal_slice_turn`. -/
def EdgePermutation.from_normal_slice_turn : Axis → EdgePermutation
  | .FB => ⟨fun x => match x with
      | .UR => (.DR, 1) | .UF => (.UF, 0) | .UL => (.UR, 1) | .UB => (.UB, 0)
      | .DR => (.DL, 1) | .DF => (.DF, 0) | .DL => (.UL, 1) | .DB => (.DB, 0)
      | .FR => (.FR, 0) | .FL => (.FL, 0) | .BR => (.BR, 0) | .BL => (.BL, 0)⟩
  | .RL => ⟨fun x => match x with
      | .UR => (.UR, 0) | .UF => (.UB, 1) | .UL => (.UL, 0) | .UB => (.DB, 1)
      | .DR => (.DR, 0) | .DF => (.UF, 1) | .DL => (.DL, 0) | .DB => (.DF, 1)
      | .FR => (.FR, 0) | .FL => (.FL, 0) | .BR => (.BR, 0) | .BL => (.BL, 0)⟩
  | .UD => ⟨fun x => match x with
      | .UR => (.UR, 0) | .UF => (.UF, 0) | .UL => (.UL, 0) | .UB => (.UB, 0)
      | .DR => (.DR, 0) | .DF => (.DF, 0) | .DL => (.DL, 0) | .DB => (.DB, 0)
      | .FR => (.FL, 1) | .FL => (.BL, 1) | .BR => (.FR, 1) | .BL => (.BR, 1)⟩

/-- `permute.rs` `EdgePermutation::from_slice_turn`. -/
def EdgePermutation.from_slice_turn (axis : Axis) (rt : RotationType) :
    EdgePermutation :=
  let s := EdgePermutation.from_normal_slice_turn axis
  match rt with
  | .Normal => s
  | .Double => s.op s
  | .Inverse => s.inverse

/-- Corner tables of `permute.rs` `CornerPermutation::from_normal_face_turn`. -/
def CornerPermutation.from_normal_face_turn : FaceType → CornerPermutation
  | .F => ⟨fun x => match x with
      | .FUR => (.FDR, 2) | .FUL => (.FUR, 1) | .FDR => (.FDL, 1) | .FDL => (.FUL, 2)
      | .BUR => (.BUR, 0) | .BUL => (.BUL, 0) | .BDR => (.BDR, 0) | .BDL => (.BDL, 0)⟩
  | .R => ⟨fun x => match x with
      | .FUR => (.BUR, 1) | .FUL => (.FUL, 0) | .FDR => (.FUR, 2) | .FDL => (.FDL, 0)
      | .BUR => (.BDR, 2) | .BUL => (.BUL, 0) | .BDR => (.FDR, 1) | .BDL => (.BDL, 0)⟩
  | .U => ⟨fun x => match x with
      | .FUR => (.FUL, 0) | .FUL => (.BUL, 0) | .FDR => (.FDR, 0) | .FDL => (.FDL, 0)
      | .BUR => (.FUR, 0) | .BUL => (.BUR, 0) | .BDR => (.BDR, 0) | .BDL => (.BDL, 0)⟩
  | .B => ⟨fun x => match x with
      | .FUR => (.FUR, 0) | .FUL => (.FUL, 0) | .FDR => (.FDR, 0) | .FDL => (.FDL, 0)
      | .BUR => (.BUL, 1) | .BUL => (.BDL, 2) | .BDR => (.BUR, 2) | .BDL => (.BDR, 1)⟩
  | .L => ⟨fun x => match x with
      | .FUR => (.FUR, 0) | .FUL => (.FDL, 2) | .FDR => (.FDR, 0) | .FDL => (.BDL, 1)
      | .BUR => (.BUR, 0) | .BUL => (.FUL, 1) | .BDR => (.BDR, 0) | .BDL => (.BUL, 2)⟩
  | .D => ⟨fun x => match x with
      | .FUR => (.FUR, 0) | .FUL => (.FUL, 0) | .FDR => (.BDR, 0) | .FDL => (.FDR, 0)
      | .BUR => (.BUR, 0) | .BUL => (.BUL, 0) | .BDR => (.BDL, 0) | .BDL => (.FDL, 0)⟩

/-- `permute.rs` `CornerPermutation::from_face_turn`. -/
def CornerPermutation.from_face_turn (face : FaceType) (rt : RotationType) :
    CornerPermutation :=
  let s := CornerPermutation.from_normal_face_turn face
  match rt with
  | .Normal => s
  | .Double => s.op s
  | .Inverse => s.inverse

/-- A permutation of the 3x3x3 cube (`permute.rs`, `CubePermutation3`): the
direct product of the centre, edge and corner permutation groups. -/
structure CubePermutation3 : Type where
  centres : CentrePermutation
  edges : EdgePermutation
  corners : CornerPermutation

instance : DecidableEq CubePermutation3 :=
  fun a b =>
    decidable_of_iff (a.centres = b.centres ∧ a.edges = b.edges ∧ a.corners = b.corners)
      (by cases a; cases b; simp)

namespace CubePermutation3

/-- Componentwise composition (`permute.rs`, `impl Magma for CubePermutation3`). -/
def op (a b : CubePermutation3) : CubePermutation3 :=
  { centres := a.centres.op b.centres
    edges := a.edges.op b.edges
    corners := a.corners.op b.corners }

/-- Componentwise inverse. -/
def inverse (a : CubePermutation3) : CubePermutation3 :=
  { centres := a.centres.inverse
    edges := a.edges.inverse
    corners := a.corners.inverse }

/-- Componentwise identity. -/
def identity : CubePermutation3 :=
  { centres := SymmetricGroup.identity
    edges := OrientedSymmetricGroup.identity
    corners := OrientedSymmetricGroup.identity }

/-- `permute.rs` `CubePermutation3::from_face_turn`. -/
def from_face_turn (face : FaceType) (rt : RotationType) : CubePermutation3 :=
  { centres := SymmetricGroup.identity
    edges := EdgePermutation.from_face_turn face rt
    corners := CornerPermutation.from_face_turn face rt }

/-- `permute.rs` `CubePermutation3::from_slice_turn`. -/
def from_slice_turn (axis : Axis) (rt : RotationType) : CubePermutation3 :=
  { centres := CentrePermutation.from_slice_turn axis rt
    edges := EdgePermutation.from_slice_turn axis rt
    corners := OrientedSymmetricGroup.identity }

/-- The front face of an axis (`permute.rs`, `from_move`). -/
def front_face : Axis → FaceType
  | .FB => .F
  | .RL => .R
  | .UD => .U

/-- The back face of an axis (`permute.rs`, `from_move`). -/
def back_face : Axis → FaceType
  | .FB => .B
  | .RL => .L
  | .UD => .D

/-- The factor of `from_move` for one depth (`permute.rs`): depth 0 turns
the front face, depth 1 the slice, depth 2 the back face with inverted
rotation; any other depth hits the panic branch, modelled as `none`. -/
def from_move_factor (mv : Move) (i : ℕ) : Option CubePermutation3 :=
  match i with
  | 0 => some (from_face_turn (front_face mv.axis) mv.rotation)
  | 1 => some (from_slice_turn mv.axis mv.rotation)
  | 2 => some (from_face_turn (back_face mv.axis) mv.rotation.inverse)
  | _ => none

/-- One step of the `from_move` fold with panic propagation. -/
def from_move_checked_step (mv : Move) (acc : Option CubePermutation3) (i : ℕ) :
    Option CubePermutation3 :=
  match acc, from_move_factor mv i with
  | some g, some h => some (g.op h)
  | _, _ => none

/-- `permute.rs` `CubePermutation3::from_move`, with the panic modelled as
`none`: the depths `start_depth, ..., end_depth - 1` are folded in
ascending order by right-multiplication onto the identity. -/
def from_move_checked (mv : Move) : Option CubePermutation3 :=
  (List.range' mv.start_depth (mv.end_depth - mv.start_depth)).foldl
    (from_move_checked_step mv) (some identity)

/-- Total version of `from_move` used by the rest of the embedding: on the
valid depth range (all depths in `{0, 1, 2}`, the only values the crate
ever constructs) it agrees with `from_move_checked`; the panic branch
contributes the identity factor instead.  The panic itself is the subject
of claim C10 and is modelled by `from_move_checked`. -/
def from_move (mv : Move) : CubePermutation3 :=
  (List.range' mv.start_depth (mv.end_depth - mv.start_depth)).foldl
    (fun g i =>
      match from_move_factor mv i with
      | some h => g.op h
      | none => g)
    identity

/-- `permute.rs` `CubePermutation3::from_move_sequence`: fold the moves in
reverse written order, left-multiplying each move's permutation. -/
def from_move_sequence (s : MoveSequence) : CubePermutation3 :=
  s.moves.reverse.foldl (fun g mv => g.op (from_move mv)) identity

/-- The data-model invariant of spec 3, componentwise. -/
def WF (a : CubePermutation3) : Prop :=
  a.centres.WF ∧ a.edges.WF ∧ a.corners.WF

instance {a : CubePermutation3} : Decidable a.WF := by
  unfold WF; infer_instance

end CubePermutation3

/-! ### Generic group-law lemmas for the group kit -/

/-- Finding a witness of a decidable predicate in the enumeration. -/
theorem enum_find_some {α : Type} [Enumerable α] (p : α → Bool) (x : α)
    (hx : p x = true) :
    ∃ z, (Enumerable.enumerate (α := α)).find? p = some z ∧ p z = true := by
  have h1 : ((Enumerable.enumerate (α := α)).find? p).isSome := by
    rw [List.find?_isSome]
    exact ⟨x, Enumerable.complete x, hx⟩
  obtain ⟨z, hz⟩ := Option.isSome_iff_exists.mp h1
  exact ⟨z, hz, List.find?_some hz⟩

namespace SymmetricGroup

variable {α : Type}

theorem sg_op_assoc (a b c : SymmetricGroup α) : (a.op b).op c = a.op (b.op c) := by
  cases a; cases b; cases c; rfl

theorem sg_op_identity (a : SymmetricGroup α) : a.op identity = a := by
  cases a; rfl

theorem sg_identity_op (a : SymmetricGroup α) : identity.op a = a := by
  cases a; rfl

theorem sg_identity_wf : (identity : SymmetricGroup α).WF :=
  Function.bijective_id

theorem sg_op_wf {a b : SymmetricGroup α} (ha : a.WF) (hb : b.WF) : (a.op b).WF := by
  have h := Function.Bijective.comp ha hb
  simpa [WF, op, Function.comp] using h

theorem sg_inverse_map_spec [DecidableEq α] [Enumerable α] {a : SymmetricGroup α}
    (ha : a.WF) (y : α) : a.map (a.inverse.map y) = y := by
  obtain ⟨x, hx⟩ := ha.2 y
  obtain ⟨z, hz, hpz⟩ := enum_find_some (fun i => decide (a.map i = y)) x (by simp [hx])
  simp only [inverse, hz]
  simpa using hpz

theorem sg_op_inverse [DecidableEq α] [Enumerable α] {a : SymmetricGroup α}
    (ha : a.WF) : a.op a.inverse = identity := by
  cases' a with f
  simp only [op, identity, SymmetricGroup.mk.injEq]
  funext y
  exact sg_inverse_map_spec ha y

theorem sg_inverse_op [DecidableEq α] [Enumerable α] {a : SymmetricGroup α}
    (ha : a.WF) : a.inverse.op a = identity := by
  simp only [op, identity, SymmetricGroup.mk.injEq]
  funext x
  exact ha.1 (by rw [sg_inverse_map_spec ha (a.map x)])

theorem sg_inverse_wf [DecidableEq α] [Enumerable α] {a : SymmetricGroup α}
    (ha : a.WF) : a.inverse.WF := by
  rw [WF, Function.bijective_iff_has_inverse]
  refine ⟨a.map, ?_, ?_⟩
  · intro y
    have := congrArg (fun g => g.map y) (sg_op_inverse ha)
    simpa [op, identity] using this
  · intro x
    have := congrArg (fun g => g.map x) (sg_inverse_op ha)
    simpa [op, identity] using this

/-- Uniqueness of the two-sided inverse. -/
theorem sg_inverse_unique [DecidableEq α] [Enumerable α] {a b : SymmetricGroup α}
    (ha : a.WF) (h1 : a.op b = identity) : b = a.inverse := by
  have h3 : (a.inverse.op a).op b = a.inverse.op (a.op b) := sg_op_assoc _ _ _
  rw [sg_inverse_op ha, sg_identity_op, h1, sg_op_identity] at h3
  exact h3

end SymmetricGroup

namespace OrientedSymmetricGroup

variable {α : Type} {k : ℕ} [NeZero k]

theorem osg_op_assoc (a b c : OrientedSymmetricGroup α k) :
    (a.op b).op c = a.op (b.op c) := by
  cases a; cases b; cases c
  simp only [op, mk.injEq]
  funext x
  simp [add_assoc]

theorem osg_op_identity (a : OrientedSymmetricGroup α k) : a.op identity = a := by
  cases a
  simp only [op, identity, mk.injEq]
  funext x
  simp

theorem osg_identity_op (a : OrientedSymmetricGroup α k) : identity.op a = a := by
  cases a
  simp only [op, identity, mk.injEq]
  funext x
  simp

theorem osg_identity_wf : (identity : OrientedSymmetricGroup α k).WF :=
  Function.bijective_id

theorem osg_op_wf {a b : OrientedSymmetricGroup α k} (ha : a.WF) (hb : b.WF) :
    (a.op b).WF := by
  have h := Function.Bijective.comp ha hb
  simpa [WF, op, Function.comp] using h

theorem osg_inverse_map_spec [DecidableEq α] [Enumerable α]
    {a : OrientedSymmetricGroup α k} (ha : a.WF) (y : α) :
    (a.map (a.inverse.map y).1).1 = y ∧
      (a.inverse.map y).2 = -(a.map (a.inverse.map y).1).2 := by
  obtain ⟨x, hx⟩ := ha.2 y
  obtain ⟨z, hz, hpz⟩ := enum_find_some (fun i => decide ((a.map i).1 = y)) x (by simpa using hx)
  simp only [inverse, hz]
  simpa using List.find?_some hz

theorem osg_op_inverse [DecidableEq α] [Enumerable α] {a : OrientedSymmetricGroup α k}
    (ha : a.WF) : a.op a.inverse = identity := by
  simp only [op, identity, mk.injEq]
  funext y
  obtain ⟨h1, h2⟩ := osg_inverse_map_spec ha y
  simp [h1, h2]

theorem osg_inverse_op [DecidableEq α] [Enumerable α] {a : OrientedSymmetricGroup α k}
    (ha : a.WF) : a.inverse.op a = identity := by
  simp only [op, identity, mk.injEq]
  funext x
  obtain ⟨h1, h2⟩ := osg_inverse_map_spec ha (a.map x).1
  have hx : (a.inverse.map (a.map x).1).1 = x := ha.1 h1
  rw [hx] at h2
  simp [hx, h2]

theorem osg_inverse_wf [DecidableEq α] [Enumerable α] {a : OrientedSymmetricGroup α k}
    (ha : a.WF) : a.inverse.WF := by
  rw [WF, Function.bijective_iff_has_inverse]
  refine ⟨fun x => (a.map x).1, ?_, ?_⟩
  · intro y
    exact (osg_inverse_map_spec ha y).1
  · intro x
    exact ha.1 (osg_inverse_map_spec ha (a.map x).1).1

theorem osg_inverse_unique [DecidableEq α] [Enumerable α]
    {a b : OrientedSymmetricGroup α k} (ha : a.WF) (h1 : a.op b = identity) :
    b = a.inverse := by
  have h3 : (a.inverse.op a).op b = a.inverse.op (a.op b) := osg_op_assoc _ _ _
  rw [osg_inverse_op ha, osg_identity_op, h1, osg_op_identity] at h3
  exact h3

end OrientedSymmetricGroup

namespace CubePermutation3

theorem cp3_op_assoc (a b c : CubePermutation3) : (a.op b).op c = a.op (b.op c) := by
  simp [op, SymmetricGroup.sg_op_assoc, OrientedSymmetricGroup.osg_op_assoc]

theorem cp3_op_identity (a : CubePermutation3) : a.op identity = a := by
  cases a
  simp [op, identity, SymmetricGroup.sg_op_identity, OrientedSymmetricGroup.osg_op_identity]

theorem cp3_identity_op (a : CubePermutation3) : identity.op a = a := by
  cases a
  simp [op, identity, SymmetricGroup.sg_identity_op, OrientedSymmetricGroup.osg_identity_op]

theorem cp3_identity_wf : (identity : CubePermutation3).WF :=
  ⟨SymmetricGroup.sg_identity_wf, OrientedSymmetricGroup.osg_identity_wf,
    OrientedSymmetricGroup.osg_identity_wf⟩

theorem cp3_op_wf {a b : CubePermutation3} (ha : a.WF) (hb : b.WF) : (a.op b).WF :=
  ⟨SymmetricGroup.sg_op_wf ha.1 hb.1, OrientedSymmetricGroup.osg_op_wf ha.2.1 hb.2.1,
    OrientedSymmetricGroup.osg_op_wf ha.2.2 hb.2.2⟩

theorem cp3_op_inverse {a : CubePermutation3} (ha : a.WF) :
    a.op a.inverse = identity := by
  simp [op, inverse, identity, SymmetricGroup.sg_op_inverse ha.1,
    OrientedSymmetricGroup.osg_op_inverse ha.2.1, OrientedSymmetricGroup.osg_op_inverse ha.2.2]

theorem cp3_inverse_op {a : CubePermutation3} (ha : a.WF) :
    a.inverse.op a = identity := by
  simp [op, inverse, identity, SymmetricGroup.sg_inverse_op ha.1,
    OrientedSymmetricGroup.osg_inverse_op ha.2.1, OrientedSymmetricGroup.osg_inverse_op ha.2.2]

theorem cp3_inverse_wf {a : CubePermutation3} (ha : a.WF) : a.inverse.WF :=
  ⟨SymmetricGroup.sg_inverse_wf ha.1, OrientedSymmetricGroup.osg_inverse_wf ha.2.1,
    OrientedSymmetricGroup.osg_inverse_wf ha.2.2⟩

theorem cp3_inverse_unique {a b : CubePermutation3} (ha : a.WF)
    (h1 : a.op b = identity) : b = a.inverse := by
  have h3 : (a.inverse.op a).op b = a.inverse.op (a.op b) := cp3_op_assoc _ _ _
  rw [cp3_inverse_op ha, cp3_identity_op, h1, cp3_op_identity] at h3
  exact h3

theorem cp3_inverse_involution {a : CubePermutation3} (ha : a.WF) :
    a.inverse.inverse = a :=
  (cp3_inverse_unique (cp3_inverse_wf ha) (cp3_inverse_op ha)).symm

theorem op_inverse_rev {a b : CubePermutation3} (ha : a.WF) (hb : b.WF) :
    (a.op b).inverse = b.inverse.op a.inverse := by
  refine (cp3_inverse_unique (cp3_op_wf ha hb) ?_).symm
  calc (a.op b).op (b.inverse.op a.inverse)
      = a.op ((b.op b.inverse).op a.inverse) := by rw [cp3_op_assoc, cp3_op_assoc]
    _ = identity := by rw [cp3_op_inverse hb, cp3_identity_op, cp3_op_inverse ha]

end CubePermutation3

/-! ### Well-formedness and algebra of the hard-coded turn tables -/

theorem SymmetricGroup.sg_inverse_involution {α : Type} [DecidableEq α] [Enumerable α]
    {a : SymmetricGroup α} (ha : a.WF) : a.inverse.inverse = a :=
  (SymmetricGroup.sg_inverse_unique (SymmetricGroup.sg_inverse_wf ha)
    (SymmetricGroup.sg_inverse_op ha)).symm

theorem OrientedSymmetricGroup.osg_inverse_involution {α : Type} {k : ℕ} [NeZero k]
    [DecidableEq α] [Enumerable α] {a : OrientedSymmetricGroup α k} (ha : a.WF) :
    a.inverse.inverse = a :=
  (OrientedSymmetricGroup.osg_inverse_unique (OrientedSymmetricGroup.osg_inverse_wf ha)
    (OrientedSymmetricGroup.osg_inverse_op ha)).symm

theorem SymmetricGroup.sg_identity_inverse {α : Type} [DecidableEq α] [Enumerable α] :
    (SymmetricGroup.identity : SymmetricGroup α).inverse = SymmetricGroup.identity :=
  (SymmetricGroup.sg_inverse_unique SymmetricGroup.sg_identity_wf
    (SymmetricGroup.sg_op_identity _)).symm

theorem OrientedSymmetricGroup.osg_identity_inverse {α : Type} {k : ℕ} [NeZero k]
    [DecidableEq α] [Enumerable α] :
    (OrientedSymmetricGroup.identity : OrientedSymmetricGroup α k).inverse =
      OrientedSymmetricGroup.identity :=
  (OrientedSymmetricGroup.osg_inverse_unique OrientedSymmetricGroup.osg_identity_wf
    (OrientedSymmetricGroup.osg_op_identity _)).symm

theorem CubePermutation3.cp3_identity_inverse :
    (CubePermutation3.identity).inverse = CubePermutation3.identity :=
  (CubePermutation3.cp3_inverse_unique CubePermutation3.cp3_identity_wf
    (CubePermutation3.cp3_op_identity _)).symm

theorem EdgePermutation.edge_face_table_wf (f : FaceType) :
    (EdgePermutation.from_normal_face_turn f).WF := by
  revert f; decide

theorem CornerPermutation.corner_face_table_wf (f : FaceType) :
    (CornerPermutation.from_normal_face_turn f).WF := by
  revert f; decide

theorem EdgePermutation.edge_slice_table_wf (ax : Axis) :
    (EdgePermutation.from_normal_slice_turn ax).WF := by
  revert ax; decide

theorem CentrePermutation.centre_slice_table_wf (ax : Axis) :
    (CentrePermutation.from_normal_slice_turn ax).WF := by
  revert ax; decide

theorem EdgePermutation.edge_face_table_order_four (f : FaceType) :
    ((EdgePermutation.from_normal_face_turn f).op
        (EdgePermutation.from_normal_face_turn f)).op
      ((EdgePermutation.from_normal_face_turn f).op
        (EdgePermutation.from_normal_face_turn f)) =
      OrientedSymmetricGroup.identity := by
  revert f; decide

theorem CornerPermutation.corner_face_table_order_four (f : FaceType) :
    ((CornerPermutation.from_normal_face_turn f).op
        (CornerPermutation.from_normal_face_turn f)).op
      ((CornerPermutation.from_normal_face_turn f).op
        (CornerPermutation.from_normal_face_turn f)) =
      OrientedSymmetricGroup.identity := by
  revert f; decide

theorem EdgePermutation.edge_slice_table_order_four (ax : Axis) :
    ((EdgePermutation.from_normal_slice_turn ax).op
        (EdgePermutation.from_normal_slice_turn ax)).op
      ((EdgePermutation.from_normal_slice_turn ax).op
        (EdgePermutation.from_normal_slice_turn ax)) =
      OrientedSymmetricGroup.identity := by
  revert ax; decide

theorem CentrePermutation.centre_slice_table_order_four (ax : Axis) :
    ((CentrePermutation.from_normal_slice_turn ax).op
        (CentrePermutation.from_normal_slice_turn ax)).op
      ((CentrePermutation.from_normal_slice_turn ax).op
        (CentrePermutation.from_normal_slice_turn ax)) =
      SymmetricGroup.identity := by
  revert ax; decide

theorem EdgePermutation.edge_from_face_turn_wf (f : FaceType) (rt : RotationType) :
    (EdgePermutation.from_face_turn f rt).WF := by
  cases rt
  · exact EdgePermutation.edge_face_table_wf f
  · exact OrientedSymmetricGroup.osg_op_wf (EdgePermutation.edge_face_table_wf f)
      (EdgePermutation.edge_face_table_wf f)
  · exact OrientedSymmetricGroup.osg_inverse_wf (EdgePermutation.edge_face_table_wf f)

theorem CornerPermutation.corner_from_face_turn_wf (f : FaceType) (rt : RotationType) :
    (CornerPermutation.from_face_turn f rt).WF := by
  cases rt
  · exact CornerPermutation.corner_face_table_wf f
  · exact OrientedSymmetricGroup.osg_op_wf (CornerPermutation.corner_face_table_wf f)
      (CornerPermutation.corner_face_table_wf f)
  · exact OrientedSymmetricGroup.osg_inverse_wf (CornerPermutation.corner_face_table_wf f)

theorem EdgePermutation.edge_from_slice_turn_wf (ax : Axis) (rt : RotationType) :
    (EdgePermutation.from_slice_turn ax rt).WF := by
  cases rt
  · exact EdgePermutation.edge_slice_table_wf ax
  · exact OrientedSymmetricGroup.osg_op_wf (EdgePermutation.edge_slice_table_wf ax)
      (EdgePermutation.edge_slice_table_wf ax)
  · exact OrientedSymmetricGroup.osg_inverse_wf (EdgePermutation.edge_slice_table_wf ax)

theorem CentrePermutation.centre_from_slice_turn_wf (ax : Axis) (rt : RotationType) :
    (CentrePermutation.from_slice_turn ax rt).WF := by
  cases rt
  · exact CentrePermutation.centre_slice_table_wf ax
  · exact SymmetricGroup.sg_op_wf (CentrePermutation.centre_slice_table_wf ax)
      (CentrePermutation.centre_slice_table_wf ax)
  · exact SymmetricGroup.sg_inverse_wf (CentrePermutation.centre_slice_table_wf ax)

theorem CubePermutation3.cp3_from_face_turn_wf (f : FaceType) (rt : RotationType) :
    (CubePermutation3.from_face_turn f rt).WF :=
  ⟨SymmetricGroup.sg_identity_wf, EdgePermutation.edge_from_face_turn_wf f rt,
    CornerPermutation.corner_from_face_turn_wf f rt⟩

theorem CubePermutation3.cp3_from_slice_turn_wf (ax : Axis) (rt : RotationType) :
    (CubePermutation3.from_slice_turn ax rt).WF :=
  ⟨CentrePermutation.centre_from_slice_turn_wf ax rt, EdgePermutation.edge_from_slice_turn_wf ax rt,
    OrientedSymmetricGroup.osg_identity_wf⟩

/-- A double turn is its own inverse (the tables have order four). -/
theorem EdgePermutation.edge_double_self_inverse (f : FaceType) :
    ((EdgePermutation.from_normal_face_turn f).op
        (EdgePermutation.from_normal_face_turn f)).inverse =
      (EdgePermutation.from_normal_face_turn f).op
        (EdgePermutation.from_normal_face_turn f) :=
  (OrientedSymmetricGroup.osg_inverse_unique
    (OrientedSymmetricGroup.osg_op_wf (EdgePermutation.edge_face_table_wf f)
      (EdgePermutation.edge_face_table_wf f))
    (EdgePermutation.edge_face_table_order_four f)).symm

theorem CornerPermutation.corner_double_self_inverse (f : FaceType) :
    ((CornerPermutation.from_normal_face_turn f).op
        (CornerPermutation.from_normal_face_turn f)).inverse =
      (CornerPermutation.from_normal_face_turn f).op
        (CornerPermutation.from_normal_face_turn f) :=
  (OrientedSymmetricGroup.osg_inverse_unique
    (OrientedSymmetricGroup.osg_op_wf (CornerPermutation.corner_face_table_wf f)
      (CornerPermutation.corner_face_table_wf f))
    (CornerPermutation.corner_face_table_order_four f)).symm

theorem EdgePermutation.edge_slice_double_self_inverse (ax : Axis) :
    ((EdgePermutation.from_normal_slice_turn ax).op
        (EdgePermutation.from_normal_slice_turn ax)).inverse =
      (EdgePermutation.from_normal_slice_turn ax).op
        (EdgePermutation.from_normal_slice_turn ax) :=
  (OrientedSymmetricGroup.osg_inverse_unique
    (OrientedSymmetricGroup.osg_op_wf (EdgePermutation.edge_slice_table_wf ax)
      (EdgePermutation.edge_slice_table_wf ax))
    (EdgePermutation.edge_slice_table_order_four ax)).symm

theorem CentrePermutation.centre_slice_double_self_inverse (ax : Axis) :
    ((CentrePermutation.from_normal_slice_turn ax).op
        (CentrePermutation.from_normal_slice_turn ax)).inverse =
      (CentrePermutation.from_normal_slice_turn ax).op
        (CentrePermutation.from_normal_slice_turn ax) :=
  (SymmetricGroup.sg_inverse_unique
    (SymmetricGroup.sg_op_wf (CentrePermutation.centre_slice_table_wf ax)
      (CentrePermutation.centre_slice_table_wf ax))
    (CentrePermutation.centre_slice_table_order_four ax)).symm

/-- Turning a face by the inverse rotation gives the inverse permutation. -/
theorem CubePermutation3.from_face_turn_rot_inverse (f : FaceType) (rt : RotationType) :
    CubePermutation3.from_face_turn f rt.inverse =
      (CubePermutation3.from_face_turn f rt).inverse := by
  cases rt
  · simp [from_face_turn, inverse, RotationType.inverse,
      EdgePermutation.from_face_turn, CornerPermutation.from_face_turn,
      SymmetricGroup.sg_identity_inverse]
  · simp [from_face_turn, inverse, RotationType.inverse,
      EdgePermutation.from_face_turn, CornerPermutation.from_face_turn,
      SymmetricGroup.sg_identity_inverse, EdgePermutation.edge_double_self_inverse,
      CornerPermutation.corner_double_self_inverse]
  · simp [from_face_turn, inverse, RotationType.inverse,
      EdgePermutation.from_face_turn, CornerPermutation.from_face_turn,
      SymmetricGroup.sg_identity_inverse,
      OrientedSymmetricGroup.osg_inverse_involution (EdgePermutation.edge_face_table_wf f),
      OrientedSymmetricGroup.osg_inverse_involution (CornerPermutation.corner_face_table_wf f)]

/-- Turning a slice by the inverse rotation gives the inverse permutation. -/
theorem CubePermutation3.from_slice_turn_rot_inverse (ax : Axis) (rt : RotationType) :
    CubePermutation3.from_slice_turn ax rt.inverse =
      (CubePermutation3.from_slice_turn ax rt).inverse := by
  cases rt
  · simp [from_slice_turn, inverse, RotationType.inverse,
      EdgePermutation.from_slice_turn, CentrePermutation.from_slice_turn,
      OrientedSymmetricGroup.osg_identity_inverse]
  · simp [from_slice_turn, inverse, RotationType.inverse,
      EdgePermutation.from_slice_turn, CentrePermutation.from_slice_turn,
      OrientedSymmetricGroup.osg_identity_inverse, EdgePermutation.edge_slice_double_self_inverse,
      CentrePermutation.centre_slice_double_self_inverse]
  · simp [from_slice_turn, inverse, RotationType.inverse,
      EdgePermutation.from_slice_turn, CentrePermutation.from_slice_turn,
      OrientedSymmetricGroup.osg_identity_inverse,
      OrientedSymmetricGroup.osg_inverse_involution (EdgePermutation.edge_slice_table_wf ax),
      SymmetricGroup.sg_inverse_involution (CentrePermutation.centre_slice_table_wf ax)]

/-! ### The commuting factor family of `from_move` -/

/-- The total factor contributed by depth `i` of a move on axis `ax` with
rotation `r` (`permute.rs`, `from_move`); the panic branch (depth outside
`{0, 1, 2}`) contributes nothing to the fold and is represented by the
identity here (the panic itself is modelled by `from_move_checked`). -/
def CubePermutation3.ffac (ax : Axis) (r : RotationType) : ℕ → CubePermutation3
  | 0 => CubePermutation3.from_face_turn (CubePermutation3.front_face ax) r
  | 1 => CubePermutation3.from_slice_turn ax r
  | 2 => CubePermutation3.from_face_turn (CubePermutation3.back_face ax) r.inverse
  | _ => CubePermutation3.identity

theorem CubePermutation3.ffac_wf (ax : Axis) (r : RotationType) (i : ℕ) :
    (CubePermutation3.ffac ax r i).WF := by
  match i with
  | 0 => exact CubePermutation3.cp3_from_face_turn_wf _ _
  | 1 => exact CubePermutation3.cp3_from_slice_turn_wf _ _
  | 2 => exact CubePermutation3.cp3_from_face_turn_wf _ _
  | (n+3) => exact CubePermutation3.cp3_identity_wf

/-- The distinct factors of one move commute (spec 4.2: a move decomposes
into up to three commuting primitive turns). -/
theorem CubePermutation3.ffac_comm (ax : Axis) (r : RotationType) (i j : ℕ) :
    (CubePermutation3.ffac ax r i).op (CubePermutation3.ffac ax r j) =
      (CubePermutation3.ffac ax r j).op (CubePermutation3.ffac ax r i) := by
  match i, j with
  | 0, 0 => rfl
  | 1, 1 => rfl
  | 2, 2 => rfl
  | 0, 1 => revert ax r; decide
  | 1, 0 => revert ax r; decide
  | 0, 2 => revert ax r; decide
  | 2, 0 => revert ax r; decide
  | 1, 2 => revert ax r; decide
  | 2, 1 => revert ax r; decide
  | (n+3), j =>
      rw [show CubePermutation3.ffac ax r (n+3) = CubePermutation3.identity from rfl,
        CubePermutation3.cp3_identity_op, CubePermutation3.cp3_op_identity]
  | 0, (n+3) =>
      rw [show CubePermutation3.ffac ax r (n+3) = CubePermutation3.identity from rfl,
        CubePermutation3.cp3_identity_op, CubePermutation3.cp3_op_identity]
  | 1, (n+3) =>
      rw [show CubePermutation3.ffac ax r (n+3) = CubePermutation3.identity from rfl,
        CubePermutation3.cp3_identity_op, CubePermutation3.cp3_op_identity]
  | 2, (n+3) =>
      rw [show CubePermutation3.ffac ax r (n+3) = CubePermutation3.identity from rfl,
        CubePermutation3.cp3_identity_op, CubePermutation3.cp3_op_identity]

/-- Inverting the rotation of a move inverts each factor. -/
theorem CubePermutation3.ffac_rot_inverse (ax : Axis) (r : RotationType) (i : ℕ) :
    CubePermutation3.ffac ax r.inverse i = (CubePermutation3.ffac ax r i).inverse := by
  match i with
  | 0 => exact CubePermutation3.from_face_turn_rot_inverse _ r
  | 1 => exact CubePermutation3.from_slice_turn_rot_inverse ax r
  | 2 => exact CubePermutation3.from_face_turn_rot_inverse _ r.inverse
  | (n+3) => exact CubePermutation3.cp3_identity_inverse.symm

/-- `from_move` written as the fold of the factor family over the depth range. -/
theorem CubePermutation3.from_move_eq_ffac_fold (mv : Move) :
    CubePermutation3.from_move mv =
      (List.range' mv.start_depth (mv.end_depth - mv.start_depth)).foldl
        (fun g i => g.op (CubePermutation3.ffac mv.axis mv.rotation i))
        CubePermutation3.identity := by
  unfold from_move
  congr 1
  funext g i
  match i with
  | 0 => rfl
  | 1 => rfl
  | 2 => rfl
  | (n+3) => exact (CubePermutation3.cp3_op_identity g).symm

/-! ### Fold algebra over the cube group -/

/-- Shifting the accumulator out of an `op`-fold. -/
theorem CubePermutation3.foldl_op_shift {β : Type} (F : β → CubePermutation3) :
    ∀ (l : List β) (a : CubePermutation3),
      l.foldl (fun g x => g.op (F x)) a =
        a.op (l.foldl (fun g x => g.op (F x)) CubePermutation3.identity) := by
  intro l
  induction l with
  | nil => intro a; exact (CubePermutation3.cp3_op_identity a).symm
  | cons x l ih =>
      intro a
      simp only [List.foldl_cons]
      rw [ih (a.op (F x)), ih (CubePermutation3.identity.op (F x)),
        CubePermutation3.cp3_identity_op, CubePermutation3.cp3_op_assoc]

theorem CubePermutation3.foldl_op_wf {β : Type} (F : β → CubePermutation3)
    (hF : ∀ x, (F x).WF) (l : List β) :
    (l.foldl (fun g x => g.op (F x)) CubePermutation3.identity).WF := by
  induction l with
  | nil => exact CubePermutation3.cp3_identity_wf
  | cons x l ih =>
      simp only [List.foldl_cons]
      rw [CubePermutation3.foldl_op_shift]
      exact CubePermutation3.cp3_op_wf
        (CubePermutation3.cp3_op_wf CubePermutation3.cp3_identity_wf (hF x)) ih

/-- An element commuting with every factor commutes with the fold. -/
theorem CubePermutation3.foldl_op_comm {β : Type} (F : β → CubePermutation3)
    (c : CubePermutation3) (hc : ∀ x, c.op (F x) = (F x).op c) (l : List β) :
    c.op (l.foldl (fun g x => g.op (F x)) CubePermutation3.identity) =
      (l.foldl (fun g x => g.op (F x)) CubePermutation3.identity).op c := by
  induction l with
  | nil =>
      simp only [List.foldl_nil]
      rw [CubePermutation3.cp3_identity_op, CubePermutation3.cp3_op_identity]
  | cons x l ih =>
      simp only [List.foldl_cons]
      rw [CubePermutation3.foldl_op_shift F l, CubePermutation3.cp3_identity_op,
        ← CubePermutation3.cp3_op_assoc, hc x, CubePermutation3.cp3_op_assoc, ih,
        ← CubePermutation3.cp3_op_assoc]

/-- Inverses of commuting well-formed elements commute. -/
theorem CubePermutation3.comm_inverse {a b : CubePermutation3} (ha : a.WF) (hb : b.WF)
    (h : a.op b = b.op a) : a.inverse.op b.inverse = b.inverse.op a.inverse := by
  have h1 := CubePermutation3.op_inverse_rev hb ha
  have h2 := CubePermutation3.op_inverse_rev ha hb
  rw [← h1, ← h2, h]

/-- The inverse of a fold of pairwise-commuting well-formed factors is the
fold of the inverted factors (in the same order). -/
theorem CubePermutation3.foldl_op_inverse {β : Type} (F : β → CubePermutation3)
    (hF : ∀ x, (F x).WF) (hcomm : ∀ x y, (F x).op (F y) = (F y).op (F x)) :
    ∀ l : List β,
      (l.foldl (fun g x => g.op (F x)) CubePermutation3.identity).inverse =
        l.foldl (fun g x => g.op ((F x).inverse)) CubePermutation3.identity := by
  intro l
  induction l with
  | nil => exact CubePermutation3.cp3_identity_inverse
  | cons x l ih =>
      simp only [List.foldl_cons]
      rw [CubePermutation3.foldl_op_shift F l, CubePermutation3.cp3_identity_op,
        CubePermutation3.foldl_op_shift (fun x => (F x).inverse) l,
        CubePermutation3.cp3_identity_op,
        CubePermutation3.op_inverse_rev (hF x) (CubePermutation3.foldl_op_wf F hF l), ih]
      refine (CubePermutation3.foldl_op_comm (fun x => (F x).inverse) (F x).inverse ?_ l).symm
      intro y
      exact CubePermutation3.comm_inverse (hF x) (hF y) (hcomm x y)

/-! ### Algebra of `from_move` and `from_move_sequence` -/

theorem CubePermutation3.from_move_wf (mv : Move) : (CubePermutation3.from_move mv).WF := by
  rw [CubePermutation3.from_move_eq_ffac_fold]
  exact CubePermutation3.foldl_op_wf _ (CubePermutation3.ffac_wf mv.axis mv.rotation) _

/-- The permutation of an inverted move is the inverse permutation. -/
theorem CubePermutation3.from_move_inverse (mv : Move) :
    CubePermutation3.from_move mv.inverse = (CubePermutation3.from_move mv).inverse := by
  rw [CubePermutation3.from_move_eq_ffac_fold, CubePermutation3.from_move_eq_ffac_fold]
  show (List.range' mv.start_depth (mv.end_depth - mv.start_depth)).foldl
      (fun g i => g.op (CubePermutation3.ffac mv.axis mv.rotation.inverse i))
      CubePermutation3.identity = _
  rw [CubePermutation3.foldl_op_inverse _ (CubePermutation3.ffac_wf mv.axis mv.rotation)
    (CubePermutation3.ffac_comm mv.axis mv.rotation)]
  congr 1
  funext g i
  rw [CubePermutation3.ffac_rot_inverse]

theorem CubePermutation3.from_move_sequence_nil :
    CubePermutation3.from_move_sequence ⟨[]⟩ = CubePermutation3.identity := rfl

theorem CubePermutation3.from_move_sequence_single (mv : Move) :
    CubePermutation3.from_move_sequence ⟨[mv]⟩ = CubePermutation3.from_move mv := by
  simp [CubePermutation3.from_move_sequence, CubePermutation3.cp3_identity_op]

/-- Concatenation of written sequences composes the permutations in reverse
order (the composition convention of spec 3). -/
theorem CubePermutation3.from_move_sequence_append (l₁ l₂ : List Move) :
    CubePermutation3.from_move_sequence ⟨l₁ ++ l₂⟩ =
      (CubePermutation3.from_move_sequence ⟨l₂⟩).op
        (CubePermutation3.from_move_sequence ⟨l₁⟩) := by
  unfold from_move_sequence
  simp only [List.reverse_append, List.foldl_append]
  rw [CubePermutation3.foldl_op_shift (fun mv => CubePermutation3.from_move mv) l₁.reverse]

theorem CubePermutation3.from_move_sequence_wf (s : MoveSequence) :
    (CubePermutation3.from_move_sequence s).WF :=
  CubePermutation3.foldl_op_wf _ CubePermutation3.from_move_wf _

/-- `from_move_sequence` is a magma homomorphism for the spec-modelled
sequence operation. -/
theorem CubePermutation3.from_move_sequence_op (a b : MoveSequence) :
    CubePermutation3.from_move_sequence (a.op b) =
      (CubePermutation3.from_move_sequence a).op (CubePermutation3.from_move_sequence b) := by
  cases' a with la
  cases' b with lb
  exact CubePermutation3.from_move_sequence_append lb la

/-- The permutation of the spec-modelled sequence inverse is the group
inverse of the permutation of the sequence. -/
theorem CubePermutation3.from_move_sequence_inverse (s : MoveSequence) :
    CubePermutation3.from_move_sequence s.inverse =
      (CubePermutation3.from_move_sequence s).inverse := by
  cases' s with l
  induction l with
  | nil =>
      show CubePermutation3.from_move_sequence ⟨[]⟩ = _
      rw [CubePermutation3.from_move_sequence_nil, CubePermutation3.cp3_identity_inverse]
  | cons x l ih =>
      have h1 : (MoveSequence.mk (x :: l)).inverse =
          MoveSequence.mk ((l.map Move.inverse).reverse ++ [x.inverse]) := by
        simp [MoveSequence.inverse]
      rw [h1, CubePermutation3.from_move_sequence_append]
      have h2 : (MoveSequence.mk (x :: l)) = MoveSequence.mk ([x] ++ l) := rfl
      rw [h2, CubePermutation3.from_move_sequence_append,
        CubePermutation3.op_inverse_rev (CubePermutation3.from_move_sequence_wf ⟨l⟩)
          (CubePermutation3.from_move_sequence_wf ⟨[x]⟩)]
      have h3 : CubePermutation3.from_move_sequence ⟨(l.map Move.inverse).reverse⟩ =
          (CubePermutation3.from_move_sequence ⟨l⟩).inverse := ih
      rw [h3, CubePermutation3.from_move_sequence_single,
        CubePermutation3.from_move_sequence_single, CubePermutation3.from_move_inverse]

/-! ### Helper lemmas for `from_move_checked` (claim C10) -/

theorem CubePermutation3.from_move_checked_step_some {mv : Move} {i : ℕ} {h : CubePermutation3}
    (hh : CubePermutation3.from_move_factor mv i = some h) (a : CubePermutation3) :
    CubePermutation3.from_move_checked_step mv (some a) i = some (a.op h) := by
  unfold from_move_checked_step
  rw [hh]

theorem CubePermutation3.from_move_checked_step_none (mv : Move) (i : ℕ) :
    CubePermutation3.from_move_checked_step mv none i = none := by
  unfold from_move_checked_step
  cases CubePermutation3.from_move_factor mv i <;> rfl

theorem CubePermutation3.from_move_checked_fold_some (mv : Move) :
    ∀ (l : List ℕ) (a : CubePermutation3), (∀ i ∈ l, i < 3) →
      l.foldl (CubePermutation3.from_move_checked_step mv) (some a) =
      some (l.foldl
        (fun g i =>
          match CubePermutation3.from_move_factor mv i with
          | some h => g.op h
          | none => g)
        a) := by
  intro l
  induction l with
  | nil => intro a _; rfl
  | cons i l ih =>
      intro a hmem
      have hi : i < 3 := hmem i (List.mem_cons_self i l)
      obtain ⟨h, hh⟩ : ∃ h, CubePermutation3.from_move_factor mv i = some h := by
        match i, hi with
        | 0, _ => exact ⟨_, rfl⟩
        | 1, _ => exact ⟨_, rfl⟩
        | 2, _ => exact ⟨_, rfl⟩
      rw [List.foldl_cons, CubePermutation3.from_move_checked_step_some hh a,
        ih (a.op h) (fun j hj => hmem j (List.mem_cons_of_mem i hj)),
        List.foldl_cons]
      simp only [hh]

theorem CubePermutation3.from_move_checked_fold_none_absorb (mv : Move) :
    ∀ l : List ℕ,
      l.foldl (CubePermutation3.from_move_checked_step mv) none = none := by
  intro l
  induction l with
  | nil => rfl
  | cons i l ih =>
      rw [List.foldl_cons, CubePermutation3.from_move_checked_step_none mv i, ih]

theorem CubePermutation3.from_move_checked_fold_none (mv : Move) :
    ∀ (l : List ℕ) (a : CubePermutation3), (∃ i ∈ l, 2 < i) →
      l.foldl (CubePermutation3.from_move_checked_step mv) (some a) = none := by
  intro l
  induction l with
  | nil => intro a h; exact absurd h (by simp)
  | cons j l ih =>
      intro a h
      obtain ⟨i, hi, hi3⟩ := h
      by_cases hj : 2 < j
      · have hnone : CubePermutation3.from_move_factor mv j = none := by
          match j, hj with
          | (n+3), _ => rfl
        rw [List.foldl_cons,
          show CubePermutation3.from_move_checked_step mv (some a) j = none by
            unfold CubePermutation3.from_move_checked_step
            rw [hnone]]
        exact CubePermutation3.from_move_checked_fold_none_absorb mv l
      · have hij : i ∈ l := by
          rcases List.mem_cons.mp hi with h1 | h1
          · omega
          · exact h1
        have hj3 : j < 3 := by omega
        obtain ⟨h, hh⟩ : ∃ h, CubePermutation3.from_move_factor mv j = some h := by
          match j, hj3 with
          | 0, _ => exact ⟨_, rfl⟩
          | 1, _ => exact ⟨_, rfl⟩
          | 2, _ => exact ⟨_, rfl⟩
        rw [List.foldl_cons, CubePermutation3.from_move_checked_step_some hh a]
        exact ih (a.op h) ⟨i, hij, hi3⟩

/-! ### Helper lemma for claim C2 -/

theorem CubePermutation3.foldl_flip_op_shift :
    ∀ (l : List CubePermutation3) (a : CubePermutation3),
      l.foldl (fun acc h => h.op acc) a =
        (l.foldl (fun acc h => h.op acc) CubePermutation3.identity).op a := by
  intro l
  induction l with
  | nil => intro a; exact (CubePermutation3.cp3_identity_op a).symm
  | cons h l ih =>
      intro a
      simp only [List.foldl_cons]
      rw [ih (h.op a), ih (h.op CubePermutation3.identity),
        CubePermutation3.cp3_op_identity, CubePermutation3.cp3_op_assoc]

/-- The reverse fold of `from_move_sequence` computes the product
`P (m_k) · ... · P (m_1)` of the per-move permutations. -/
theorem CubePermutation3.from_move_sequence_eq_foldl_map (l : List Move) :
    CubePermutation3.from_move_sequence ⟨l⟩ =
      (l.map CubePermutation3.from_move).foldl
        (fun acc h => h.op acc) CubePermutation3.identity := by
  induction l with
  | nil => rfl
  | cons x l ih =>
      have h1 : CubePermutation3.from_move_sequence ⟨x :: l⟩ =
          (CubePermutation3.from_move_sequence ⟨l⟩).op
            (CubePermutation3.from_move x) := by
        have := CubePermutation3.from_move_sequence_append [x] l
        rw [show ([x] ++ l) = x :: l from rfl] at this
        rw [this, CubePermutation3.from_move_sequence_single]
      rw [h1, ih]
      simp only [List.map_cons, List.foldl_cons, CubePermutation3.cp3_op_identity]
      rw [CubePermutation3.foldl_flip_op_shift (l.map CubePermutation3.from_move)
        (CubePermutation3.from_move x)]

/-- The written U-perm algorithm "R' U R' U' R' U' R' U R U R2" as parsed
by the notation of `cube.rs` (R-family moves act on axis RL with depths
`[0, 1)`, U-family on axis UD with depths `[0, 1)`). -/
def u_perm_sequence : MoveSequence :=
  ⟨[⟨.RL, .Inverse, 0, 1⟩, ⟨.UD, .Normal, 0, 1⟩, ⟨.RL, .Inverse, 0, 1⟩,
    ⟨.UD, .Inverse, 0, 1⟩, ⟨.RL, .Inverse, 0, 1⟩, ⟨.UD, .Inverse, 0, 1⟩,
    ⟨.RL, .Inverse, 0, 1⟩, ⟨.UD, .Normal, 0, 1⟩, ⟨.RL, .Normal, 0, 1⟩,
    ⟨.UD, .Normal, 0, 1⟩, ⟨.RL, .Double, 0, 1⟩]⟩

/-- C2: `CubePermutation3::from_move_sequence` folds the written sequence in
reverse order by left-multiplication, so a written sequence `m_1 ... m_k`
maps to the product `P (m_k) · ... · P (m_1)`; in particular the U-perm
algorithm "R' U R' U' R' U' R' U R U R2" has order 3 on edges and acts on
edges as the 3-cycle UR to UL to UB to UR with all resulting orientations
zero (and every other edge fixed). -/
theorem C2_from_move_sequence_convention_and_u_perm :
    (∀ l : List Move,
      CubePermutation3.from_move_sequence ⟨l⟩ =
        (l.map CubePermutation3.from_move).foldl
          (fun acc h => h.op acc) CubePermutation3.identity) ∧
    (∀ l₁ l₂ : List Move,
      CubePermutation3.from_move_sequence ⟨l₁ ++ l₂⟩ =
        (CubePermutation3.from_move_sequence ⟨l₂⟩).op
          (CubePermutation3.from_move_sequence ⟨l₁⟩)) ∧
    (((CubePermutation3.from_move_sequence u_perm_sequence).edges.op
          ((CubePermutation3.from_move_sequence u_perm_sequence).edges.op
            (CubePermutation3.from_move_sequence u_perm_sequence).edges)) =
        OrientedSymmetricGroup.identity ∧
      (CubePermutation3.from_move_sequence u_perm_sequence).edges ≠
        OrientedSymmetricGroup.identity ∧
      ((CubePermutation3.from_move_sequence u_perm_sequence).edges.op
          (CubePermutation3.from_move_sequence u_perm_sequence).edges) ≠
        OrientedSymmetricGroup.identity ∧
      (CubePermutation3.from_move_sequence u_perm_sequence).edges.act (.UR, 0) = (.UL, 0) ∧
      (CubePermutation3.from_move_sequence u_perm_sequence).edges.act (.UL, 0) = (.UB, 0) ∧
      (CubePermutation3.from_move_sequence u_perm_sequence).edges.act (.UB, 0) = (.UR, 0) ∧
      ∀ x : EdgeType, x = .UR ∨ x = .UL ∨ x = .UB ∨
        (CubePermutation3.from_move_sequence u_perm_sequence).edges.act (x, 0) = (x, 0)) := by
  refine ⟨CubePermutation3.from_move_sequence_eq_foldl_map,
    CubePermutation3.from_move_sequence_append, ?_⟩
  decide

/-- C10: `CubePermutation3::from_move` returns normally on every move whose
depth range lies inside the cube (`end_depth ≤ 3`; depth indices iterated
are then all in `{0, 1, 2}`), and panics (modelled as `none`) on any move
whose depth range contains an index outside `{0, 1, 2}`. -/
theorem C10_from_move_panic_freedom (mv : Move) :
    (mv.end_depth ≤ 3 →
      CubePermutation3.from_move_checked mv = some (CubePermutation3.from_move mv)) ∧
    (∀ i : ℕ, mv.start_depth ≤ i → i < mv.end_depth → 2 < i →
      CubePermutation3.from_move_checked mv = none) := by
  constructor
  · intro h3
    unfold CubePermutation3.from_move_checked CubePermutation3.from_move
    apply CubePermutation3.from_move_checked_fold_some
    intro i hi
    have := List.mem_range'_1.mp hi
    omega
  · intro i h1 h2 h3
    unfold CubePermutation3.from_move_checked
    apply CubePermutation3.from_move_checked_fold_none
    refine ⟨i, ?_, h3⟩
    rw [List.mem_range'_1]
    omega

/-- Witness for C10 at the concrete moves `U` (depth range `[0, 1)`) and an
invalid move with depth range `[0, 4)`. -/
theorem C10_from_move_panic_freedom_witness :
    CubePermutation3.from_move_checked ⟨.UD, .Normal, 0, 1⟩ =
        some (CubePermutation3.from_move ⟨.UD, .Normal, 0, 1⟩) ∧
      CubePermutation3.from_move_checked ⟨.UD, .Normal, 0, 4⟩ = none :=
  ⟨(C10_from_move_panic_freedom ⟨.UD, .Normal, 0, 1⟩).1 (by decide),
    (C10_from_move_panic_freedom ⟨.UD, .Normal, 0, 4⟩).2 3 (by decide) (by decide) (by decide)⟩

/-- C8: the group laws of spec 8.1 for every well-formed cube permutation
(the data-model invariant of spec 3), both for the product group
`CubePermutation3` and componentwise for the centre, edge and corner
groups; composition is associative on every triple unconditionally. -/
theorem C8_group_laws (P : CubePermutation3) (hP : P.WF) :
    (P.op CubePermutation3.identity = P ∧
      CubePermutation3.identity.op P = P ∧
      P.op P.inverse = CubePermutation3.identity ∧
      P.inverse.op P = CubePermutation3.identity) ∧
    (∀ a b c : CubePermutation3, (a.op b).op c = a.op (b.op c)) ∧
    (P.centres.op SymmetricGroup.identity = P.centres ∧
      SymmetricGroup.identity.op P.centres = P.centres ∧
      P.centres.op P.centres.inverse = SymmetricGroup.identity ∧
      P.centres.inverse.op P.centres = SymmetricGroup.identity ∧
      ∀ a b c : CentrePermutation, (a.op b).op c = a.op (b.op c)) ∧
    (P.edges.op OrientedSymmetricGroup.identity = P.edges ∧
      OrientedSymmetricGroup.identity.op P.edges = P.edges ∧
      P.edges.op P.edges.inverse = OrientedSymmetricGroup.identity ∧
      P.edges.inverse.op P.edges = OrientedSymmetricGroup.identity ∧
      ∀ a b c : EdgePermutation, (a.op b).op c = a.op (b.op c)) ∧
    (P.corners.op OrientedSymmetricGroup.identity = P.corners ∧
      OrientedSymmetricGroup.identity.op P.corners = P.corners ∧
      P.corners.op P.corners.inverse = OrientedSymmetricGroup.identity ∧
      P.corners.inverse.op P.corners = OrientedSymmetricGroup.identity ∧
      ∀ a b c : CornerPermutation, (a.op b).op c = a.op (b.op c)) := by
  refine ⟨⟨CubePermutation3.cp3_op_identity P, CubePermutation3.cp3_identity_op P,
      CubePermutation3.cp3_op_inverse hP, CubePermutation3.cp3_inverse_op hP⟩,
    CubePermutation3.cp3_op_assoc,
    ⟨SymmetricGroup.sg_op_identity _, SymmetricGroup.sg_identity_op _,
      SymmetricGroup.sg_op_inverse hP.1, SymmetricGroup.sg_inverse_op hP.1,
      SymmetricGroup.sg_op_assoc⟩,
    ⟨OrientedSymmetricGroup.osg_op_identity _, OrientedSymmetricGroup.osg_identity_op _,
      OrientedSymmetricGroup.osg_op_inverse hP.2.1, OrientedSymmetricGroup.osg_inverse_op hP.2.1,
      OrientedSymmetricGroup.osg_op_assoc⟩,
    ⟨OrientedSymmetricGroup.osg_op_identity _, OrientedSymmetricGroup.osg_identity_op _,
      OrientedSymmetricGroup.osg_op_inverse hP.2.2, OrientedSymmetricGroup.osg_inverse_op hP.2.2,
      OrientedSymmetricGroup.osg_op_assoc⟩⟩

/-- Witness for C8 at the permutation of a clockwise F turn. -/
theorem C8_group_laws_witness :
    (CubePermutation3.from_face_turn .F .Normal).op
        (CubePermutation3.from_face_turn .F .Normal).inverse =
      CubePermutation3.identity :=
  (C8_group_laws (CubePermutation3.from_face_turn .F .Normal) (by decide)).1.2.2.1

/-! ### Ordering of moves and sequences (for the source's `sort`/`dedup`) -/

/-- Index of an axis in declaration order. -/
def Axis.idx : Axis → ℕ
  | .FB => 0
  | .RL => 1
  | .UD => 2

/-- Index of a rotation in declaration order. -/
def RotationType.idx : RotationType → ℕ
  | .Normal => 0
  | .Double => 1
  | .Inverse => 2

/-- Modelled from the spec: a total order on moves.  The `Ord` instance of
`Move` is not part of `src/` (spec 9 lets the implementer "choose a total
ordering on Move"); the model uses the lexicographic order on
(axis, rotation, start depth, end depth), encoded through the pairing
function. -/
def Move.key (m : Move) : ℕ :=
  Nat.pair m.axis.idx (Nat.pair m.rotation.idx (Nat.pair m.start_depth m.end_depth))

theorem Move.key_inj {a b : Move} (h : a.key = b.key) : a = b := by
  cases' a with ax r s e
  cases' b with ax' r' s' e'
  simp only [key] at h
  rw [Nat.pair_eq_pair] at h
  obtain ⟨h1, h2⟩ := h
  rw [Nat.pair_eq_pair] at h2
  obtain ⟨h3, h4⟩ := h2
  rw [Nat.pair_eq_pair] at h4
  obtain ⟨h5, h6⟩ := h4
  have hax : ax = ax' := by cases ax <;> cases ax' <;> simp_all [Axis.idx]
  have hr : r = r' := by cases r <;> cases r' <;> simp_all [RotationType.idx]
  simp_all

/-- Lexicographic comparison of key lists. -/
def keyListLe : List ℕ → List ℕ → Bool
  | [], _ => true
  | _ :: _, [] => false
  | a :: as, b :: bs => if a < b then true else if b < a then false else keyListLe as bs

theorem keyListLe_total : ∀ u v : List ℕ, keyListLe u v = true ∨ keyListLe v u = true := by
  intro u
  induction u with
  | nil => intro v; left; rfl
  | cons a as ih =>
      intro v
      cases v with
      | nil => right; rfl
      | cons b bs =>
          by_cases h1 : a < b
          · left; simp [keyListLe, h1]
          · by_cases h2 : b < a
            · right; simp [keyListLe, h2]
            · have : ¬ b < a := h2
              rcases ih bs with h | h
              · left; simp [keyListLe, h1, h2, h]
              · right; simp [keyListLe, h1, h2, h]

theorem keyListLe_trans :
    ∀ u v w : List ℕ, keyListLe u v = true → keyListLe v w = true → keyListLe u w = true := by
  intro u
  induction u with
  | nil => intro v w _ _; rfl
  | cons a as ih =>
      intro v w huv hvw
      cases v with
      | nil => simp [keyListLe] at huv
      | cons b bs =>
          cases w with
          | nil => simp [keyListLe] at hvw
          | cons c cs =>
              simp only [keyListLe] at huv hvw ⊢
              split_ifs at huv hvw ⊢ with h1 h2 h3 h4 h5 h6 <;>
                first
                  | rfl
                  | omega
                  | (exact ih bs cs (by simpa using huv) (by simpa using hvw))
                  | simp_all

theorem keyListLe_antisymm :
    ∀ u v : List ℕ, keyListLe u v = true → keyListLe v u = true → u = v := by
  intro u
  induction u with
  | nil =>
      intro v _ hvu
      cases v with
      | nil => rfl
      | cons b bs => simp [keyListLe] at hvu
  | cons a as ih =>
      intro v huv hvu
      cases v with
      | nil => simp [keyListLe] at huv
      | cons b bs =>
          simp only [keyListLe] at huv hvu
          split_ifs at huv hvu with h1 h2 h3 h4 <;> first
            | omega
            | (have hab : a = b := by omega
               have := ih bs (by simpa using huv) (by simpa using hvu)
               simp_all)

/-- Modelled from the spec: the total order on move sequences used by the
source's `sort` calls, lexicographic over the move order. -/
def MoveSequence.le (a b : MoveSequence) : Prop :=
  keyListLe (a.moves.map Move.key) (b.moves.map Move.key) = true

instance : DecidableRel MoveSequence.le := by
  unfold MoveSequence.le
  infer_instance

instance : IsTotal MoveSequence MoveSequence.le :=
  ⟨fun a b => keyListLe_total _ _⟩

instance : IsTrans MoveSequence MoveSequence.le :=
  ⟨fun a b c => keyListLe_trans _ _ _⟩

theorem MoveSequence.le_antisymm {a b : MoveSequence} (h1 : a.le b) (h2 : b.le a) :
    a = b := by
  have h3 := keyListLe_antisymm _ _ h1 h2
  have h4 : a.moves = b.moves :=
    List.map_injective_iff.mpr (fun x y => Move.key_inj) h3
  cases a; cases b; simpa using h4

/-- `Vec::dedup` of Rust: remove consecutive duplicate elements. -/
def dedup_consecutive {α : Type} [DecidableEq α] : List α → List α
  | [] => []
  | [a] => [a]
  | a :: b :: rest =>
      if a = b then dedup_consecutive (b :: rest)
      else a :: dedup_consecutive (b :: rest)

theorem dedup_consecutive_sublist {α : Type} [DecidableEq α] :
    ∀ l : List α, List.Sublist (dedup_consecutive l) l := by
  intro l
  match l with
  | [] => exact List.Sublist.refl _
  | [a] => exact List.Sublist.refl _
  | a :: b :: rest =>
      by_cases h : a = b
      · simp only [dedup_consecutive, if_pos h]
        exact (dedup_consecutive_sublist (b :: rest)).cons a
      · simp only [dedup_consecutive, if_neg h]
        exact (dedup_consecutive_sublist (b :: rest)).cons₂ a

theorem mem_dedup_consecutive {α : Type} [DecidableEq α] :
    ∀ (l : List α) (x : α), x ∈ dedup_consecutive l ↔ x ∈ l := by
  intro l
  match l with
  | [] => intro x; rfl
  | [a] => intro x; rfl
  | a :: b :: rest =>
      intro x
      by_cases h : a = b
      · simp only [dedup_consecutive, if_pos h]
        rw [mem_dedup_consecutive (b :: rest)]
        subst h
        simp [List.mem_cons]
      · simp only [dedup_consecutive, if_neg h, List.mem_cons]
        rw [mem_dedup_consecutive (b :: rest)]
        simp [List.mem_cons]

theorem dedup_consecutive_sorted {α : Type} [DecidableEq α] {r : α → α → Prop}
    {l : List α} (hs : l.Sorted r) : (dedup_consecutive l).Sorted r :=
  List.Pairwise.sublist (dedup_consecutive_sublist l) hs

theorem dedup_consecutive_nodup {α : Type} [DecidableEq α] {r : α → α → Prop}
    (hr : ∀ a b, r a b → r b a → a = b) :
    ∀ l : List α, l.Sorted r → (dedup_consecutive l).Nodup := by
  intro l
  match l with
  | [] => intro _; exact List.nodup_nil
  | [a] => intro _; exact List.nodup_singleton a
  | a :: b :: rest =>
      intro hs
      have hs' : (b :: rest).Sorted r := hs.tail
      by_cases h : a = b
      · simp only [dedup_consecutive, if_pos h]
        exact dedup_consecutive_nodup hr (b :: rest) hs'
      · simp only [dedup_consecutive, if_neg h]
        refine List.Nodup.cons ?_ (dedup_consecutive_nodup hr (b :: rest) hs')
        intro hmem
        have hmem' : a ∈ b :: rest := (mem_dedup_consecutive _ _).mp hmem
        rcases List.mem_cons.mp hmem' with h1 | h1
        · exact h h1
        · have hab : r a b := (List.sorted_cons.mp hs).1 b (List.mem_cons_self b rest)
          have hba : r b a := by
            have hax : r b a ∨ a = b := by
              have := (List.sorted_cons.mp hs').1 a h1
              exact Or.inl this
            rcases hax with h2 | h2
            · exact h2
            · exact absurd h2 h
          exact h (hr a b hab hba)

/-- The graph of signatures (`intuitive.rs`, `SequenceGraph<S>`): a map from
each signature to its outgoing labelled transitions. -/
structure SequenceGraph (S : Type) : Type where
  graph : List (S × List (MoveSequence × S))

/-- The solver table (`intuitive.rs`, `SequenceSolver<S>`). -/
structure SequenceSolver (S : Type) : Type where
  node_info : List (S × MoveSequence)

/-- The normalised generating set of `SequenceGraph::new` (`intuitive.rs`,
lines 54-63): every generator contributes its inverse, its double and
itself; the list is then canonicalised, the empty sequences are dropped,
and the result is sorted and deduplicated. -/
def SequenceGraph.real_gen_set (gen_set : List MoveSequence) : List MoveSequence :=
  dedup_consecutive
    (List.insertionSort MoveSequence.le
      (((gen_set.map (fun mv => [mv.inverse, mv.op mv, mv])).join.map
          MoveSequence.canonicalise).filter (fun mv => !mv.moves.isEmpty)))

/-- C6 (amended): in `SequenceGraph` construction every generator, single
move or multi-move alike, is expanded into its inverse, its double and
itself; the expanded list is canonicalised, the empty sequences are
dropped, and the result is sorted and deduplicated. -/
theorem C6_gen_set_normalisation (gen_set : List MoveSequence) :
    (∀ m : MoveSequence,
      m ∈ SequenceGraph.real_gen_set gen_set ↔
        (m.moves ≠ [] ∧ ∃ g ∈ gen_set,
          m = g.inverse.canonicalise ∨ m = (g.op g).canonicalise ∨ m = g.canonicalise)) ∧
    (SequenceGraph.real_gen_set gen_set).Sorted MoveSequence.le ∧
    (SequenceGraph.real_gen_set gen_set).Nodup := by
  refine ⟨?_, ?_, ?_⟩
  · intro m
    unfold SequenceGraph.real_gen_set
    rw [mem_dedup_consecutive, (List.perm_insertionSort MoveSequence.le _).mem_iff]
    rw [show MoveSequence.canonicalise = id from rfl]
    simp only [List.map_id, List.mem_filter, List.mem_join, List.mem_map, id_eq]
    constructor
    · rintro ⟨⟨l, ⟨g, hg, rfl⟩, hmem⟩, hne⟩
      refine ⟨?_, g, hg, ?_⟩
      · intro h0
        rw [h0] at hne
        simp at hne
      · simpa [List.mem_cons, or_comm, or_left_comm] using hmem
    · rintro ⟨hne, g, hg, hm⟩
      refine ⟨⟨[g.inverse, g.op g, g], ⟨g, hg, rfl⟩, ?_⟩, ?_⟩
      · rcases hm with h | h | h <;> rw [h] <;> simp
      · cases h : m.moves with
        | nil => exact absurd h hne
        | cons a l => simp [h]
  · exact dedup_consecutive_sorted (List.sorted_insertionSort MoveSequence.le _)
  · exact dedup_consecutive_nodup (fun a b => MoveSequence.le_antisymm)
      _ (List.sorted_insertionSort MoveSequence.le _)

/-- Counterexample to C6 as stated: the multi-move generator "R U" does not
contribute only itself; its inverse "U' R'" is also in the normalised
generating set. -/
theorem C6_counterexample :
    (⟨[⟨.UD, .Inverse, 0, 1⟩, ⟨.RL, .Inverse, 0, 1⟩]⟩ : MoveSequence) ∈
        SequenceGraph.real_gen_set [⟨[⟨.RL, .Normal, 0, 1⟩, ⟨.UD, .Normal, 0, 1⟩]⟩] ∧
      (⟨[⟨.UD, .Inverse, 0, 1⟩, ⟨.RL, .Inverse, 0, 1⟩]⟩ : MoveSequence) ≠
        ⟨[⟨.RL, .Normal, 0, 1⟩, ⟨.UD, .Normal, 0, 1⟩]⟩ := by
  decide

/-! ### Association list primitives (model of `HashMap`) -/

/-- Association list lookup: the value stored under a key, if any. -/
def lookupKey {κ β : Type} [DecidableEq κ] (k : κ) : List (κ × β) → Option β
  | [] => none
  | e :: rest => if e.1 = k then some e.2 else lookupKey k rest

theorem lookupKey_none_iff {κ β : Type} [DecidableEq κ] (k : κ) :
    ∀ l : List (κ × β), lookupKey k l = none ↔ k ∉ l.map Prod.fst := by
  intro l
  induction l with
  | nil => simp [lookupKey]
  | cons e rest ih =>
      by_cases h : e.1 = k
      · simp [lookupKey, h]
      · simp [lookupKey, h, ih, Ne.symm h]

theorem lookupKey_isSome_iff {κ β : Type} [DecidableEq κ] (k : κ) :
    ∀ l : List (κ × β), (lookupKey k l).isSome ↔ k ∈ l.map Prod.fst := by
  intro l
  induction l with
  | nil => simp [lookupKey]
  | cons e rest ih =>
      by_cases h : e.1 = k
      · simp [lookupKey, h]
      · simp [lookupKey, h, ih, Ne.symm h]

theorem lookupKey_mem {κ β : Type} [DecidableEq κ] {k : κ} {v : β} :
    ∀ {l : List (κ × β)}, lookupKey k l = some v → (k, v) ∈ l := by
  intro l
  induction l with
  | nil => intro h; exact absurd h (by simp [lookupKey])
  | cons e rest ih =>
      intro h
      by_cases he : e.1 = k
      · simp only [lookupKey, if_pos he] at h
        obtain ⟨k1, v1⟩ := e
        simp only at he
        subst he
        cases h
        exact List.mem_cons_self _ _
      · simp only [lookupKey, if_neg he] at h
        exact List.mem_cons_of_mem e (ih h)

/-! ### Fintype instances for the cube group (used only in proofs) -/

instance {α : Type} [Fintype α] [DecidableEq α] : Fintype (SymmetricGroup α) :=
  Fintype.ofEquiv (α → α)
    ⟨SymmetricGroup.mk, SymmetricGroup.map, fun _ => rfl, fun a => by cases a; rfl⟩

instance {α : Type} {k : ℕ} [NeZero k] [Fintype α] [DecidableEq α] :
    Fintype (OrientedSymmetricGroup α k) :=
  Fintype.ofEquiv (α → α × Fin k)
    ⟨OrientedSymmetricGroup.mk, OrientedSymmetricGroup.map, fun _ => rfl,
      fun a => by cases a; rfl⟩

instance fintypeCubePermutation3 : Fintype CubePermutation3 :=
  Fintype.ofEquiv (CentrePermutation × EdgePermutation × CornerPermutation)
    ⟨fun t => ⟨t.1, t.2.1, t.2.2⟩, fun c => (c.centres, c.edges, c.corners),
      fun _ => rfl, fun c => by cases c; rfl⟩

attribute [irreducible] fintypeCubePermutation3

/-! ### Graph exploration (`intuitive.rs`, `SequenceGraph::explore`) -/

/-- `intuitive.rs` `SequenceGraph::explore`: breadth of the source: for a
permutation whose signature is not yet a node, a node is created whose
transitions are the generators that change the signature, and the new
permutations are explored recursively.  The recursion is realised as a
depth-first worklist (children are prepended, matching the source's
recursion order) with an explicit fuel argument; `SequenceGraph::new`
supplies enough fuel for the exploration to finish (claim C9). -/
def SequenceGraph.explore {S : Type} [DecidableEq S]
    (gen_set : List MoveSequence) (signature : CubePermutation3 → S) :
    ℕ → List CubePermutation3 → List (S × List (MoveSequence × S)) →
      List (S × List (MoveSequence × S))
  | 0, _, g => g
  | _ + 1, [], g => g
  | fuel + 1, p :: ws, g =>
      match lookupKey (signature p) g with
      | some _ => SequenceGraph.explore gen_set signature fuel ws g
      | none =>
          let discovered := gen_set.filterMap (fun seq =>
            let new_permutation := (CubePermutation3.from_move_sequence seq).op p
            let new_signature := signature new_permutation
            if new_signature ≠ signature p then some ((seq, new_signature), new_permutation)
            else none)
          SequenceGraph.explore gen_set signature fuel
            (discovered.map Prod.snd ++ ws)
            ((signature p, discovered.map Prod.fst) :: g)

/-- The fuel passed by `SequenceGraph::new`; ample for the exploration,
whose call count is bounded through the finiteness of the cube group
(claim C9). -/
def SequenceGraph.explore_fuel (gen_set : List MoveSequence) : ℕ :=
  (gen_set.length + 1) * 2 ^ 128

/-- `intuitive.rs` `SequenceGraph::new`: normalise the generating set and
explore from the identity permutation. -/
def SequenceGraph.new {S : Type} [DecidableEq S] (gen_set : List MoveSequence)
    (signature : CubePermutation3 → S) : SequenceGraph S :=
  ⟨SequenceGraph.explore (SequenceGraph.real_gen_set gen_set) signature
    (SequenceGraph.explore_fuel (SequenceGraph.real_gen_set gen_set))
    [CubePermutation3.identity] []⟩

/-- Termination measure of the exploration: signatures not yet in the graph
(weighted by the generator count) plus the worklist length. -/
def SequenceGraph.explore_measure {S : Type} [DecidableEq S]
    (gen_set : List MoveSequence) (signature : CubePermutation3 → S)
    (ws : List CubePermutation3) (g : List (S × List (MoveSequence × S))) : ℕ :=
  ((Finset.univ.image signature) \ ((g.map Prod.fst).toFinset)).card *
      (gen_set.length + 1) +
    ws.length

theorem SequenceGraph.explore_missing_decrement {S : Type} [DecidableEq S]
    (signature : CubePermutation3 → S) (g : List (S × List (MoveSequence × S)))
    (p : CubePermutation3) (hlk : lookupKey (signature p) g = none)
    (tr : List (MoveSequence × S)) :
    ((Finset.univ.image signature) \
        ((((signature p, tr) :: g).map Prod.fst).toFinset)).card + 1 =
      ((Finset.univ.image signature) \ ((g.map Prod.fst).toFinset)).card := by
  have hmem : signature p ∈
      (Finset.univ.image signature) \ ((g.map Prod.fst).toFinset) := by
    rw [Finset.mem_sdiff]
    constructor
    · exact Finset.mem_image.mpr ⟨p, Finset.mem_univ p, rfl⟩
    · rw [List.mem_toFinset]
      exact (lookupKey_none_iff _ _).mp hlk
  rw [List.map_cons, List.toFinset_cons, Finset.sdiff_insert,
    Finset.card_erase_add_one hmem]

/-- Fuel beyond the measure does not change the result of the exploration. -/
theorem SequenceGraph.explore_fuel_irrelevant {S : Type} [DecidableEq S]
    (gen_set : List MoveSequence) (signature : CubePermutation3 → S) :
    ∀ (n m : ℕ) (ws : List CubePermutation3) (g : List (S × List (MoveSequence × S))),
      SequenceGraph.explore_measure gen_set signature ws g ≤ n →
      SequenceGraph.explore_measure gen_set signature ws g ≤ m →
      SequenceGraph.explore gen_set signature n ws g =
        SequenceGraph.explore gen_set signature m ws g := by
  intro n
  induction n with
  | zero =>
      intro m ws g hn hm
      have hws : ws = [] := by
        have := hn
        unfold SequenceGraph.explore_measure at this
        have hlen : ws.length = 0 := by omega
        exact List.length_eq_zero.mp hlen
      subst hws
      cases m <;> rfl
  | succ n ih =>
      intro m ws g hn hm
      cases ws with
      | nil => cases m <;> rfl
      | cons p ws' =>
          have hlen : (p :: ws').length ≤
              SequenceGraph.explore_measure gen_set signature (p :: ws') g := by
            unfold SequenceGraph.explore_measure
            omega
          cases m with
          | zero =>
              exfalso
              simp only [List.length_cons] at hlen
              omega
          | succ m' =>
              cases hlk : lookupKey (signature p) g with
              | some st =>
                  have hms : SequenceGraph.explore_measure gen_set signature ws' g + 1 =
                      SequenceGraph.explore_measure gen_set signature (p :: ws') g := by
                    unfold SequenceGraph.explore_measure
                    simp [List.length_cons]
                    omega
                  simp only [SequenceGraph.explore, hlk]
                  exact ih m' ws' g (by omega) (by omega)
              | none =>
                  simp only [SequenceGraph.explore, hlk]
                  set discovered := gen_set.filterMap (fun seq =>
                    let new_permutation := (CubePermutation3.from_move_sequence seq).op p
                    let new_signature := signature new_permutation
                    if new_signature ≠ signature p then
                      some ((seq, new_signature), new_permutation)
                    else none) with hdisc
                  have hdlen : discovered.length ≤ gen_set.length :=
                    List.length_filterMap_le _ _
                  have hms : SequenceGraph.explore_measure gen_set signature
                      (discovered.map Prod.snd ++ ws')
                      ((signature p, discovered.map Prod.fst) :: g) + 1 ≤
                      SequenceGraph.explore_measure gen_set signature (p :: ws') g := by
                    have hdec := SequenceGraph.explore_missing_decrement signature g p hlk
                      (discovered.map Prod.fst)
                    unfold SequenceGraph.explore_measure
                    rw [List.length_append, List.length_map, List.length_cons]
                    have h1 : (((Finset.univ.image signature) \
                        ((((signature p, discovered.map Prod.fst) :: g).map
                          Prod.fst).toFinset)).card) + 1 =
                        ((Finset.univ.image signature) \
                          ((g.map Prod.fst).toFinset)).card := hdec
                    nlinarith [h1, hdlen]
                  exact ih m' _ _ (by omega) (by omega)

/-- C9: the exploration of `SequenceGraph` construction, started from the
identity permutation, terminates for every finite generator set and every
signature function: there is a finite fuel bound past which more fuel does
not change the resulting graph (a recursive call is made only when a fresh
signature is inserted, and the cube group is finite, so the measure
`explore_measure` bounds the number of calls). -/
theorem C9_explore_terminates {S : Type} [DecidableEq S]
    (gen_set : List MoveSequence) (signature : CubePermutation3 → S) :
    ∃ N : ℕ, ∀ n : ℕ,
      SequenceGraph.explore gen_set signature (N + n) [CubePermutation3.identity] [] =
        SequenceGraph.explore gen_set signature N [CubePermutation3.identity] [] := by
  refine ⟨SequenceGraph.explore_measure gen_set signature [CubePermutation3.identity] [],
    fun n => ?_⟩
  exact SequenceGraph.explore_fuel_irrelevant gen_set signature _ _ _ _
    (by omega) (le_refl _)

/-! ### Priority queue and Dijkstra search (`intuitive.rs`, `SequenceGraph::search`) -/

/-- The largest `u64` value (`std::u64::MAX`); priorities are
`U64MAX - distance` as in the source. -/
def U64MAX : ℕ := 2 ^ 64 - 1

/-- Pop an element of maximal priority (model of `PriorityQueue::pop`; the
crate does not specify which element is returned among equal priorities,
the model takes the front-most maximal one). -/
def popMax {S : Type} : List (S × ℕ) → Option ((S × ℕ) × List (S × ℕ))
  | [] => none
  | x :: xs =>
      match popMax xs with
      | none => some (x, [])
      | some (m, rest) => if m.2 > x.2 then some (m, x :: rest) else some (x, xs)

/-- Model of `PriorityQueue::change_priority`: set the priority of a key if
it is present, do nothing otherwise. -/
def changePriority {S : Type} [DecidableEq S] (k : S) (p : ℕ) (q : List (S × ℕ)) :
    List (S × ℕ) :=
  q.map (fun e => if e.1 = k then (k, p) else e)

/-- Remove all entries of a key (model of `HashMap::remove`). -/
def eraseKey {κ β : Type} [DecidableEq κ] (k : κ) : List (κ × β) → List (κ × β)
  | [] => []
  | e :: rest => if e.1 = k then eraseKey k rest else e :: eraseKey k rest

/-- Insert-or-replace under a key (model of `HashMap::insert`). -/
def insertKV {κ β : Type} [DecidableEq κ] (k : κ) (v : β) (l : List (κ × β)) :
    List (κ × β) :=
  (k, v) :: eraseKey k l

/-- One relaxation step of the Dijkstra loop (`intuitive.rs`, lines 150-170):
for an outgoing edge of the popped node, if the edge target is still in the
queue and the candidate sequence has a better priority, update its priority
and tentative sequence. -/
def SequenceGraph.relax {S : Type} [DecidableEq S] (metric : MoveSequence → ℕ)
    (move_sequence : MoveSequence)
    (acc : List (S × ℕ) × List (S × MoveSequence)) (edge : MoveSequence × S) :
    List (S × ℕ) × List (S × MoveSequence) :=
  match lookupKey edge.2 acc.1 with
  | none => acc
  | some existing_priority =>
      let tentative_move_sequence : MoveSequence := ⟨move_sequence.moves ++ edge.1.moves⟩
      let tentative_metric := metric tentative_move_sequence
      let tentative_priority := U64MAX - tentative_metric
      if tentative_priority > existing_priority then
        (changePriority edge.2 tentative_priority acc.1,
          insertKV edge.2 tentative_move_sequence acc.2)
      else acc

/-- The Dijkstra loop of `intuitive.rs` `SequenceGraph::search`: pop the
highest-priority unvisited signature, record the inverse of its tentative
sequence, and relax its outgoing edges.  A popped node without a tentative
sequence is the source's panicking `expect`, modelled as `none`.  The fuel
supplied by `search` (queue length plus one) cannot run out because every
iteration removes one queue entry. -/
def SequenceGraph.searchLoop {S : Type} [DecidableEq S] (G : SequenceGraph S)
    (metric : MoveSequence → ℕ) :
    ℕ → List (S × ℕ) → List (S × MoveSequence) → List (S × MoveSequence) →
      Option (SequenceSolver S)
  | 0, _, _, _ => none
  | fuel + 1, queue, msMap, node_info =>
      match popMax queue with
      | none => some ⟨node_info⟩
      | some (se, queue') =>
          match lookupKey se.1 msMap with
          | none => none
          | some move_sequence =>
              let node_info' := insertKV se.1 move_sequence.inverse node_info
              let msMap' := eraseKey se.1 msMap
              let qm := ((lookupKey se.1 G.graph).getD []).foldl
                (SequenceGraph.relax metric move_sequence) (queue', msMap')
              SequenceGraph.searchLoop G metric fuel qm.1 qm.2 node_info'

/-- `intuitive.rs` `SequenceGraph::search`: all signatures enter the queue
at priority 0 (distance infinity), the target gets priority `U64MAX`
(distance 0) and the empty tentative sequence, then the Dijkstra loop runs. -/
def SequenceGraph.search {S : Type} [DecidableEq S] (G : SequenceGraph S)
    (target_signature : S) (metric : MoveSequence → ℕ) : Option (SequenceSolver S) :=
  let unvisited_queue := changePriority target_signature U64MAX
    (G.graph.map (fun node => (node.1, 0)))
  SequenceGraph.searchLoop G metric (unvisited_queue.length + 1) unvisited_queue
    [(target_signature, ⟨[]⟩)] []

/-- `intuitive.rs` `SequenceSolver::solve`. -/
def SequenceSolver.solve {S : Type} [DecidableEq S] (solver : SequenceSolver S)
    (signature : S) : Option MoveSequence :=
  lookupKey signature solver.node_info

/-- The slice-turn metric (raw move count), the canonical metric of the
source (`intuitive.rs`, `seq.moves.len()`). -/
def stm_metric (seq : MoveSequence) : ℕ :=
  seq.moves.length

/-! ### Basic queue lemmas -/

theorem popMax_none_iff {S : Type} :
    ∀ q : List (S × ℕ), popMax q = none ↔ q = [] := by
  intro q
  cases q with
  | nil => simp [popMax]
  | cons x xs =>
      simp only [popMax]
      cases h : popMax xs with
      | none => simp
      | some m => cases m with | mk a rest => by_cases hc : a.2 > x.2 <;> simp [hc]

theorem popMax_mem {S : Type} :
    ∀ {q : List (S × ℕ)} {x : S × ℕ} {rest : List (S × ℕ)},
      popMax q = some (x, rest) → x ∈ q := by
  intro q
  induction q with
  | nil => intro x rest h; exact absurd h (by simp [popMax])
  | cons e xs ih =>
      intro x rest h
      simp only [popMax] at h
      cases hx : popMax xs with
      | none =>
          simp only [hx] at h
          cases h
          exact List.mem_cons_self _ _
      | some m =>
          obtain ⟨a, r⟩ := m
          simp only [hx] at h
          by_cases hc : a.2 > e.2
          · rw [if_pos hc] at h
            cases h
            exact List.mem_cons_of_mem e (ih hx)
          · rw [if_neg hc] at h
            cases h
            exact List.mem_cons_self _ _

theorem popMax_rest_subset {S : Type} :
    ∀ {q : List (S × ℕ)} {x : S × ℕ} {rest : List (S × ℕ)},
      popMax q = some (x, rest) → ∀ e ∈ rest, e ∈ q := by
  intro q
  induction q with
  | nil => intro x rest h; exact absurd h (by simp [popMax])
  | cons e xs ih =>
      intro x rest h
      simp only [popMax] at h
      cases hx : popMax xs with
      | none =>
          simp only [hx] at h
          cases h
          intro f hf
          exact absurd hf (by simp)
      | some m =>
          obtain ⟨a, r⟩ := m
          simp only [hx] at h
          by_cases hc : a.2 > e.2
          · rw [if_pos hc] at h
            cases h
            intro f hf
            rcases List.mem_cons.mp hf with h1 | h1
            · rw [h1]; exact List.mem_cons_self _ _
            · exact List.mem_cons_of_mem e (ih hx f h1)
          · rw [if_neg hc] at h
            cases h
            intro f hf
            exact List.mem_cons_of_mem e hf

theorem popMax_is_max {S : Type} :
    ∀ {q : List (S × ℕ)} {x : S × ℕ} {rest : List (S × ℕ)},
      popMax q = some (x, rest) → ∀ e ∈ q, e.2 ≤ x.2 := by
  intro q
  induction q with
  | nil => intro x rest h; exact absurd h (by simp [popMax])
  | cons e xs ih =>
      intro x rest h
      simp only [popMax] at h
      cases hx : popMax xs with
      | none =>
          simp only [hx] at h
          cases h
          intro f hf
          rcases List.mem_cons.mp hf with h1 | h1
          · rw [h1]
          · rw [popMax_none_iff] at hx
            subst hx
            exact absurd h1 (by simp)
      | some m =>
          obtain ⟨a, r⟩ := m
          simp only [hx] at h
          by_cases hc : a.2 > e.2
          · rw [if_pos hc] at h
            cases h
            intro f hf
            rcases List.mem_cons.mp hf with h1 | h1
            · rw [h1]; omega
            · exact ih hx f h1
          · rw [if_neg hc] at h
            cases h
            intro f hf
            rcases List.mem_cons.mp hf with h1 | h1
            · rw [h1]
            · have := ih hx f h1
              omega

theorem changePriority_not_mem {S : Type} [DecidableEq S] {k : S} {p : ℕ} :
    ∀ {q : List (S × ℕ)}, k ∉ q.map Prod.fst → changePriority k p q = q := by
  intro q
  induction q with
  | nil => intro _; rfl
  | cons e xs ih =>
      intro h
      simp only [List.map_cons, List.mem_cons] at h
      push_neg at h
      simp only [changePriority, List.map_cons]
      rw [if_neg (by exact fun hc => h.1 hc.symm)]
      have := ih (by simpa [changePriority] using h.2)
      simpa [changePriority] using this

theorem changePriority_keys {S : Type} [DecidableEq S] (k : S) (p : ℕ) :
    ∀ q : List (S × ℕ), (changePriority k p q).map Prod.fst = q.map Prod.fst := by
  intro q
  induction q with
  | nil => rfl
  | cons e xs ih =>
      simp only [changePriority, List.map_cons] at ih ⊢
      by_cases h : e.1 = k
      · rw [if_pos h, h]
        simpa using ih
      · rw [if_neg h]
        simpa using ih

theorem eraseKey_subset {κ β : Type} [DecidableEq κ] (k : κ) :
    ∀ {l : List (κ × β)} {e : κ × β}, e ∈ eraseKey k l → e ∈ l := by
  intro l
  induction l with
  | nil => intro e h; exact absurd h (by simp [eraseKey])
  | cons f rest ih =>
      intro e h
      simp only [eraseKey] at h
      by_cases hf : f.1 = k
      · rw [if_pos hf] at h
        exact List.mem_cons_of_mem f (ih h)
      · rw [if_neg hf] at h
        rcases List.mem_cons.mp h with h1 | h1
        · rw [h1]; exact List.mem_cons_self f rest
        · exact List.mem_cons_of_mem f (ih h1)

theorem insertKV_cases {κ β : Type} [DecidableEq κ] {k : κ} {v : β}
    {l : List (κ × β)} {e : κ × β} (h : e ∈ insertKV k v l) :
    e = (k, v) ∨ e ∈ l := by
  rcases List.mem_cons.mp h with h1 | h1
  · exact Or.inl h1
  · exact Or.inr (eraseKey_subset k h1)

/-! ### Claim C5: search with a target absent from the graph -/

/-- Behaviour of `search` when the target is absent from the graph. -/
theorem search_missing_target_aux {S : Type} [DecidableEq S] (G : SequenceGraph S)
    (t : S) (metric : MoveSequence → ℕ) (h : t ∉ G.graph.map Prod.fst) :
    (G.graph = [] → G.search t metric = some ⟨[]⟩) ∧
    (G.graph ≠ [] → G.search t metric = none) := by
  constructor
  · intro hg
    unfold SequenceGraph.search
    rw [hg]
    rfl
  · intro hg
    unfold SequenceGraph.search
    have hkeys : (G.graph.map (fun node => (node.1, (0:ℕ)))).map Prod.fst =
        G.graph.map Prod.fst := by
      simp
    have hchange : changePriority t U64MAX (G.graph.map (fun node => (node.1, 0))) =
        G.graph.map (fun node => (node.1, 0)) := by
      apply changePriority_not_mem
      rw [hkeys]
      exact h
    rw [hchange]
    have hne : G.graph.map (fun node => (node.1, (0:ℕ))) ≠ [] := by
      simpa using hg
    obtain ⟨x, rest, hpop⟩ : ∃ x rest,
        popMax (G.graph.map (fun node => (node.1, (0:ℕ)))) = some (x, rest) := by
      cases hp : popMax (G.graph.map (fun node => (node.1, (0:ℕ)))) with
      | none => exact absurd ((popMax_none_iff _).mp hp) hne
      | some m =>
          obtain ⟨a, b⟩ := m
          exact ⟨a, b, rfl⟩
    have hx : x ∈ G.graph.map (fun node => (node.1, (0:ℕ))) := popMax_mem hpop
    have hxt : x.1 ≠ t := by
      intro heq
      apply h
      rw [← hkeys]
      rw [← heq]
      exact List.mem_map_of_mem Prod.fst hx
    have hlen : (G.graph.map (fun node => (node.1, (0:ℕ)))).length = 
        (G.graph.map (fun node => (node.1, (0:ℕ)))).length := rfl
    cases hL : (G.graph.map (fun node => (node.1, (0:ℕ)))).length with
    | zero =>
        exact absurd (List.length_eq_zero.mp hL) hne
    | succ n =>
        simp only [SequenceGraph.searchLoop, hpop]
        have hlk : lookupKey x.1 [(t, (⟨[]⟩ : MoveSequence))] = none := by
          simp only [lookupKey, if_neg (show ¬ t = x.1 from fun hc => hxt hc.symm)]
        rw [hlk]

/-- C5 (amended): if the target signature is not a node of the graph, then
`SequenceGraph::search` returns an empty table when the graph itself is
empty, but on a nonempty graph the first popped node has no tentative
sequence and the loop's `expect` panics (modelled as `none`) instead of
returning an empty table. -/
theorem C5_search_missing_target {S : Type} [DecidableEq S] (G : SequenceGraph S)
    (t : S) (metric : MoveSequence → ℕ) (h : t ∉ G.graph.map Prod.fst) :
    (G.graph = [] → G.search t metric = some ⟨[]⟩) ∧
    (G.graph ≠ [] → G.search t metric = none) :=
  search_missing_target_aux G t metric h

/-- Counterexample to C5 as stated: on a nonempty graph (one node `0`, no
transitions) with the absent target `1`, `search` does not return an empty
table; it panics (modelled as `none`) at the first popped node. -/
theorem C5_counterexample :
    (1 : ℕ) ∉ ((⟨[(0, [])]⟩ : SequenceGraph ℕ)).graph.map Prod.fst ∧
      (⟨[(0, [])]⟩ : SequenceGraph ℕ).search 1 stm_metric = none ∧
      (⟨[(0, [])]⟩ : SequenceGraph ℕ).search 1 stm_metric ≠ some ⟨[]⟩ := by
  refine ⟨by decide, rfl, ?_⟩
  intro hc
  rw [show (⟨[(0, [])]⟩ : SequenceGraph ℕ).search 1 stm_metric = none from rfl] at hc
  exact Option.noConfusion hc

/-! ### Claim C1: correctness of the sequence solver -/

/-- The precondition of claim C1: the signature function is a congruence of
the generator action, i.e. the signature of `q · p` depends on `p` only
through the signature of `p` (spec 4.3 requires callers to provide such a
σ). -/
def SignatureCongruence {S : Type} (signature : CubePermutation3 → S) : Prop :=
  ∀ p₁ p₂ q : CubePermutation3, signature p₁ = signature p₂ →
    signature (q.op p₁) = signature (q.op p₂)

/-- A path in a sequence graph from the node `t`, following stored
transitions and concatenating the edge labels in traversal order. -/
inductive SequenceGraph.PathTo {S : Type} [DecidableEq S] (G : SequenceGraph S) (t : S) :
    S → List Move → Prop where
  | nil : SequenceGraph.PathTo G t t []
  | cons {s : S} {l : List Move} {g : MoveSequence} {s' : S} :
      SequenceGraph.PathTo G t s l →
      (g, s') ∈ (lookupKey s G.graph).getD [] →
      SequenceGraph.PathTo G t s' (l ++ g.moves)

/-- Every stored edge is correct for every permutation with the node's
signature (the key invariant of spec 4.3 under a congruent σ). -/
def SequenceGraph.EdgesCorrect {S : Type} (signature : CubePermutation3 → S)
    (g : List (S × List (MoveSequence × S))) : Prop :=
  ∀ node ∈ g, ∀ e ∈ node.2, ∀ p : CubePermutation3, signature p = node.1 →
    signature ((CubePermutation3.from_move_sequence e.1).op p) = e.2

/-- Every node key of the graph list is realised by some permutation. -/
def SequenceGraph.KeysRealised {S : Type} (signature : CubePermutation3 → S)
    (g : List (S × List (MoveSequence × S))) : Prop :=
  ∀ node ∈ g, ∃ p : CubePermutation3, signature p = node.1

theorem SequenceGraph.explore_keys_realised {S : Type} [DecidableEq S]
    (gen_set : List MoveSequence) (signature : CubePermutation3 → S) :
    ∀ (fuel : ℕ) (ws : List CubePermutation3) (g : List (S × List (MoveSequence × S))),
      SequenceGraph.KeysRealised signature g →
      SequenceGraph.KeysRealised signature (SequenceGraph.explore gen_set signature fuel ws g) := by
  intro fuel
  induction fuel with
  | zero => intro ws g hg; exact hg
  | succ fuel ih =>
      intro ws g hg
      cases ws with
      | nil => exact hg
      | cons p ws' =>
          cases hlk : lookupKey (signature p) g with
          | some st =>
              simp only [SequenceGraph.explore, hlk]
              exact ih ws' g hg
          | none =>
              simp only [SequenceGraph.explore, hlk]
              apply ih
              intro node hnode
              rcases List.mem_cons.mp hnode with h1 | h1
              · exact ⟨p, by rw [h1]⟩
              · exact hg node h1

theorem SequenceGraph.explore_edges_correct {S : Type} [DecidableEq S]
    (gen_set : List MoveSequence) (signature : CubePermutation3 → S)
    (hcong : SignatureCongruence signature) :
    ∀ (fuel : ℕ) (ws : List CubePermutation3) (g : List (S × List (MoveSequence × S))),
      SequenceGraph.EdgesCorrect signature g →
      SequenceGraph.EdgesCorrect signature (SequenceGraph.explore gen_set signature fuel ws g) := by
  intro fuel
  induction fuel with
  | zero => intro ws g hg; exact hg
  | succ fuel ih =>
      intro ws g hg
      cases ws with
      | nil => exact hg
      | cons p ws' =>
          cases hlk : lookupKey (signature p) g with
          | some st =>
              simp only [SequenceGraph.explore, hlk]
              exact ih ws' g hg
          | none =>
              simp only [SequenceGraph.explore, hlk]
              apply ih
              intro node hnode
              rcases List.mem_cons.mp hnode with h1 | h1
              · subst h1
                intro e he p' hp'
                simp only [List.mem_map] at he
                obtain ⟨ep, hep, rfl⟩ := he
                simp only [List.mem_filterMap] at hep
                obtain ⟨seq, hseq, hif⟩ := hep
                by_cases hneq : signature ((CubePermutation3.from_move_sequence seq).op p) ≠
                    signature p
                · rw [if_pos hneq] at hif
                  cases hif
                  exact hcong p' p (CubePermutation3.from_move_sequence seq) hp'
                · rw [if_neg hneq] at hif
                  exact absurd hif (by simp)
              · exact hg node h1

/-- The graph built by `SequenceGraph::new` realises all its keys. -/
theorem SequenceGraph.new_keys_realised {S : Type} [DecidableEq S]
    (gen_set : List MoveSequence) (signature : CubePermutation3 → S) :
    SequenceGraph.KeysRealised signature (SequenceGraph.new gen_set signature).graph :=
  SequenceGraph.explore_keys_realised _ signature _ _ _ (by intro node h; exact absurd h (by simp))

/-- Under a congruent signature, the graph built by `SequenceGraph::new`
has only correct edges. -/
theorem SequenceGraph.new_edges_correct {S : Type} [DecidableEq S]
    (gen_set : List MoveSequence) (signature : CubePermutation3 → S)
    (hcong : SignatureCongruence signature) :
    SequenceGraph.EdgesCorrect signature (SequenceGraph.new gen_set signature).graph :=
  SequenceGraph.explore_edges_correct _ signature hcong _ _ _
    (by intro node h; exact absurd h (by simp))

/-- Semantics of a path: under a congruent signature with correct edges,
the concatenated labels of a path from `t` to `s` carry any permutation of
signature `t` to one of signature `s`. -/
theorem SequenceGraph.pathTo_signature {S : Type} [DecidableEq S]
    {G : SequenceGraph S} {signature : CubePermutation3 → S} {t : S}
    (hedges : SequenceGraph.EdgesCorrect signature G.graph) :
    ∀ {s : S} {l : List Move}, SequenceGraph.PathTo G t s l →
      ∀ p : CubePermutation3, signature p = t →
        signature ((CubePermutation3.from_move_sequence ⟨l⟩).op p) = s := by
  intro s l hpath
  induction hpath with
  | nil =>
      intro p hp
      rw [CubePermutation3.from_move_sequence_nil, CubePermutation3.cp3_identity_op]
      exact hp
  | @cons s₀ l₀ g s' hp0 hedge ih =>
      intro p hp
      rw [CubePermutation3.from_move_sequence_append, CubePermutation3.cp3_op_assoc]
      cases hlk : lookupKey s₀ G.graph with
      | none =>
          rw [hlk] at hedge
          exact absurd hedge (by simp)
      | some tr =>
          rw [hlk] at hedge
          simp only [Option.getD_some] at hedge
          have hnode : (s₀, tr) ∈ G.graph := lookupKey_mem hlk
          have := hedges (s₀, tr) hnode (g, s') hedge
            ((CubePermutation3.from_move_sequence ⟨l₀⟩).op p) (ih p hp)
          have hg : CubePermutation3.from_move_sequence g =
              CubePermutation3.from_move_sequence ⟨g.moves⟩ := rfl
          rw [← hg]
          exact this

/-- A path from `t` either stays at `t` with no moves, or `t` is a node of
the graph. -/
theorem SequenceGraph.pathTo_root {S : Type} [DecidableEq S]
    {G : SequenceGraph S} {t : S} :
    ∀ {s : S} {l : List Move}, SequenceGraph.PathTo G t s l →
      (s = t ∧ l = []) ∨ t ∈ G.graph.map Prod.fst := by
  intro s l hpath
  induction hpath with
  | nil => exact Or.inl ⟨rfl, rfl⟩
  | @cons s₀ l₀ g s' hp0 hedge ih =>
      rcases ih with ⟨h1, h2⟩ | h1
      · right
        rw [← h1]
        cases hlk : lookupKey s₀ G.graph with
        | none =>
            rw [hlk] at hedge
            exact absurd hedge (by simp)
        | some tr =>
            have hs : (lookupKey s₀ G.graph).isSome := by rw [hlk]; rfl
            exact (lookupKey_isSome_iff _ _).mp hs
      · exact Or.inr h1

theorem changePriority_mem_keys {S : Type} [DecidableEq S] {k : S} {p : ℕ}
    {q : List (S × ℕ)} {e : S × ℕ} (h : e ∈ changePriority k p q) :
    e.1 ∈ q.map Prod.fst := by
  simp only [changePriority, List.mem_map] at h
  obtain ⟨f, hf, he⟩ := h
  by_cases hc : f.1 = k
  · rw [if_pos hc] at he
    rw [← he]
    simpa [← hc] using List.mem_map_of_mem Prod.fst hf
  · rw [if_neg hc] at he
    rw [← he]
    exact List.mem_map_of_mem Prod.fst hf

/-- The relaxation fold preserves the path invariants of the queue and the
tentative-sequence map. -/
theorem SequenceGraph.relax_fold_paths {S : Type} [DecidableEq S]
    (G : SequenceGraph S) (t : S) (metric : MoveSequence → ℕ)
    (move_sequence : MoveSequence) (s : S)
    (hpath : SequenceGraph.PathTo G t s move_sequence.moves) :
    ∀ (tr : List (MoveSequence × S)),
      (∀ e ∈ tr, e ∈ ((lookupKey s G.graph).getD [] : List (MoveSequence × S))) →
      ∀ (queue : List (S × ℕ)) (msMap : List (S × MoveSequence)),
      (∀ e ∈ queue, e.1 ∈ G.graph.map Prod.fst) →
      (∀ e ∈ msMap, SequenceGraph.PathTo G t e.1 e.2.moves) →
      (∀ e ∈ (tr.foldl (SequenceGraph.relax metric move_sequence) (queue, msMap)).1,
          e.1 ∈ G.graph.map Prod.fst) ∧
      (∀ e ∈ (tr.foldl (SequenceGraph.relax metric move_sequence) (queue, msMap)).2,
          SequenceGraph.PathTo G t e.1 e.2.moves) := by
  intro tr
  induction tr with
  | nil => intro _ queue msMap hq hms; exact ⟨hq, hms⟩
  | cons edge tr ih =>
      intro htr queue msMap hq hms
      rw [List.foldl_cons]
      have hedge : edge ∈ ((lookupKey s G.graph).getD [] : List (MoveSequence × S)) :=
        htr edge (List.mem_cons_self edge tr)
      have htr' : ∀ e ∈ tr, e ∈ ((lookupKey s G.graph).getD [] : List (MoveSequence × S)) :=
        fun e he => htr e (List.mem_cons_of_mem edge he)
      cases hlk : lookupKey edge.2 queue with
      | none =>
          have hstep : SequenceGraph.relax metric move_sequence (queue, msMap) edge =
              (queue, msMap) := by
            unfold SequenceGraph.relax
            rw [hlk]
          rw [hstep]
          exact ih htr' queue msMap hq hms
      | some ep =>
          by_cases hcmp : U64MAX - metric ⟨move_sequence.moves ++ edge.1.moves⟩ > ep
          · have hstep : SequenceGraph.relax metric move_sequence (queue, msMap) edge =
                (changePriority edge.2 (U64MAX - metric ⟨move_sequence.moves ++ edge.1.moves⟩) queue,
                  insertKV edge.2 ⟨move_sequence.moves ++ edge.1.moves⟩ msMap) := by
              unfold SequenceGraph.relax
              rw [hlk]
              simp only [if_pos hcmp]
            rw [hstep]
            apply ih htr'
            · intro e he
              have hmem : e.1 ∈ queue.map Prod.fst := changePriority_mem_keys he
              simp only [List.mem_map] at hmem
              obtain ⟨f, hf, hfe⟩ := hmem
              have := hq f hf
              rwa [hfe] at this
            · intro e he
              rcases insertKV_cases he with h1 | h1
              · rw [h1]
                exact SequenceGraph.PathTo.cons hpath hedge
              · exact hms e h1
          · have hstep : SequenceGraph.relax metric move_sequence (queue, msMap) edge =
                (queue, msMap) := by
              unfold SequenceGraph.relax
              rw [hlk]
              simp only [if_neg hcmp]
            rw [hstep]
            exact ih htr' queue msMap hq hms

/-- Along the Dijkstra loop, every tentative sequence is a path from the
target and every recorded node holds the inverse of such a path. -/
theorem SequenceGraph.searchLoop_paths {S : Type} [DecidableEq S]
    (G : SequenceGraph S) (t : S) (metric : MoveSequence → ℕ) :
    ∀ (fuel : ℕ) (queue : List (S × ℕ)) (msMap node_info : List (S × MoveSequence))
      (solver : SequenceSolver S),
      (∀ e ∈ queue, e.1 ∈ G.graph.map Prod.fst) →
      (∀ e ∈ msMap, SequenceGraph.PathTo G t e.1 e.2.moves) →
      (∀ e ∈ node_info, ∃ l, e.2 = (MoveSequence.mk l).inverse ∧ SequenceGraph.PathTo G t e.1 l) →
      SequenceGraph.searchLoop G metric fuel queue msMap node_info = some solver →
      ∀ e ∈ solver.node_info,
        ∃ l, e.2 = (MoveSequence.mk l).inverse ∧ SequenceGraph.PathTo G t e.1 l := by
  intro fuel
  induction fuel with
  | zero =>
      intro queue msMap node_info solver _ _ _ hrun
      exact absurd hrun (by simp [SequenceGraph.searchLoop])
  | succ fuel ih =>
      intro queue msMap node_info solver hq hms hni hrun
      cases hpop : popMax queue with
      | none =>
          simp only [SequenceGraph.searchLoop, hpop] at hrun
          cases hrun
          exact hni
      | some pr =>
          obtain ⟨se, queue'⟩ := pr
          cases hlk : lookupKey se.1 msMap with
          | none =>
              simp only [SequenceGraph.searchLoop, hpop, hlk] at hrun
              exact Option.noConfusion hrun
          | some move_sequence =>
              simp only [SequenceGraph.searchLoop, hpop, hlk] at hrun
              have hse := popMax_mem hpop
              have hmsq := hms (se.1, move_sequence) (lookupKey_mem hlk)
              have hrest := popMax_rest_subset hpop
              have hrelax := SequenceGraph.relax_fold_paths G t metric move_sequence se.1
                hmsq ((lookupKey se.1 G.graph).getD []) (fun e he => he) queue'
                (eraseKey se.1 msMap)
                (fun e he => hq e (hrest e he))
                (fun e he => hms e (eraseKey_subset _ he))
              refine ih _ _ _ solver hrelax.1 hrelax.2 ?_ hrun
              intro e he
              rcases insertKV_cases he with h1 | h1
              · subst h1
                exact ⟨move_sequence.moves, rfl, hmsq⟩
              · exact hni e h1

/-- Fuel-independent equations of the exploration (used to evaluate
`SequenceGraph::new` at concrete inputs). -/
theorem SequenceGraph.explore_nil {S : Type} [DecidableEq S]
    (gen_set : List MoveSequence) (signature : CubePermutation3 → S)
    (fuel : ℕ) (g : List (S × List (MoveSequence × S))) :
    SequenceGraph.explore gen_set signature fuel [] g = g := by
  cases fuel <;> rfl

theorem SequenceGraph.explore_cons_new {S : Type} [DecidableEq S]
    (gen_set : List MoveSequence) (signature : CubePermutation3 → S)
    (fuel : ℕ) (hf : fuel ≠ 0) (p : CubePermutation3) (ws : List CubePermutation3)
    (g : List (S × List (MoveSequence × S)))
    (hlk : lookupKey (signature p) g = none) :
    SequenceGraph.explore gen_set signature fuel (p :: ws) g =
      SequenceGraph.explore gen_set signature (fuel - 1)
        ((gen_set.filterMap (fun seq =>
          let new_permutation := (CubePermutation3.from_move_sequence seq).op p
          let new_signature := signature new_permutation
          if new_signature ≠ signature p then some ((seq, new_signature), new_permutation)
          else none)).map Prod.snd ++ ws)
        ((signature p, (gen_set.filterMap (fun seq =>
          let new_permutation := (CubePermutation3.from_move_sequence seq).op p
          let new_signature := signature new_permutation
          if new_signature ≠ signature p then some ((seq, new_signature), new_permutation)
          else none)).map Prod.fst) :: g) := by
  obtain ⟨n, rfl⟩ : ∃ n, fuel = n + 1 := ⟨fuel - 1, by omega⟩
  simp only [SequenceGraph.explore, hlk, Nat.add_sub_cancel]

/-- C1: for a sequence solver produced by `SequenceGraph::search` on a
graph built by `SequenceGraph::new`, under the precondition that the
signature is a congruence of the generator action: for every signature `s`
in the solver's table, applying the permutation of the stored sequence on
the left of any cube permutation of signature `s` yields a permutation
whose signature is the target. -/
theorem C1_sequence_solver_correct {S : Type} [DecidableEq S]
    (gen_set : List MoveSequence) (signature : CubePermutation3 → S)
    (target_signature : S) (metric : MoveSequence → ℕ)
    (solver : SequenceSolver S) (s : S) (m : MoveSequence) (p : CubePermutation3)
    (hcong : SignatureCongruence signature)
    (hsearch : (SequenceGraph.new gen_set signature).search target_signature metric =
      some solver)
    (hsolve : solver.solve s = some m)
    (hsig : signature p = s) :
    signature ((CubePermutation3.from_move_sequence m).op p) = target_signature := by
  set G := SequenceGraph.new gen_set signature with hG
  have hentry : (s, m) ∈ solver.node_info := lookupKey_mem hsolve
  have hq0 : ∀ e ∈ changePriority target_signature U64MAX
      (G.graph.map (fun node => (node.1, (0:ℕ)))), e.1 ∈ G.graph.map Prod.fst := by
    intro e he
    have := changePriority_mem_keys he
    simpa using this
  have hms0 : ∀ e ∈ ([(target_signature, (⟨[]⟩ : MoveSequence))] :
      List (S × MoveSequence)), SequenceGraph.PathTo G target_signature e.1 e.2.moves := by
    intro e he
    rcases List.mem_cons.mp he with h1 | h1
    · rw [h1]
      exact SequenceGraph.PathTo.nil
    · exact absurd h1 (by simp)
  have hpaths := SequenceGraph.searchLoop_paths G target_signature metric _ _ _ _ solver
    hq0 hms0 (by intro e he; exact absurd he (by simp)) hsearch
  obtain ⟨l, hm, hpath⟩ := hpaths (s, m) hentry
  have hm' : m = (MoveSequence.mk l).inverse := hm
  rcases SequenceGraph.pathTo_root hpath with ⟨hst, hl⟩ | hroot
  · subst hst
    subst hl
    have hmval : m = (⟨[]⟩ : MoveSequence) := by
      rw [hm']
      rfl
    rw [hmval, CubePermutation3.from_move_sequence_nil, CubePermutation3.cp3_identity_op, hsig]
  · obtain ⟨node, hnode, hkey⟩ : ∃ node ∈ G.graph, node.1 = target_signature := by
      simp only [List.mem_map] at hroot
      obtain ⟨node, hnode, hkey⟩ := hroot
      exact ⟨node, hnode, hkey⟩
    obtain ⟨pt, hpt⟩ := SequenceGraph.new_keys_realised gen_set signature node hnode
    rw [hkey] at hpt
    have hforward := SequenceGraph.pathTo_signature
      (SequenceGraph.new_edges_correct gen_set signature hcong) hpath pt hpt
    have hA : CubePermutation3.from_move_sequence m =
        (CubePermutation3.from_move_sequence ⟨l⟩).inverse := by
      rw [hm', CubePermutation3.from_move_sequence_inverse]
    set A := CubePermutation3.from_move_sequence ⟨l⟩ with hAdef
    have hAwf : A.WF := CubePermutation3.from_move_sequence_wf _
    have hsig' : signature (A.op pt) = signature p := by
      rw [hforward, hsig]
    have := hcong (A.op pt) p A.inverse hsig'
    rw [← CubePermutation3.cp3_op_assoc, CubePermutation3.cp3_inverse_op hAwf,
      CubePermutation3.cp3_identity_op] at this
    rw [hA, ← this, hpt]

/-- Witness for C1 at the trivial signature (constant 0), the empty
generator set, target 0, the identity permutation, and the STM metric. -/
theorem C1_sequence_solver_correct_witness :
    (fun _ : CubePermutation3 => (0 : ℕ))
        ((CubePermutation3.from_move_sequence ⟨[]⟩).op CubePermutation3.identity) = 0 := by
  have hreal : SequenceGraph.real_gen_set [] = [] := rfl
  have hf : SequenceGraph.explore_fuel [] ≠ 0 := by
    unfold SequenceGraph.explore_fuel
    positivity
  have hexp : SequenceGraph.explore [] (fun _ : CubePermutation3 => (0 : ℕ))
      (SequenceGraph.explore_fuel []) [CubePermutation3.identity] [] = [(0, [])] := by
    rw [SequenceGraph.explore_cons_new [] _ _ hf CubePermutation3.identity [] [] rfl]
    simp only [List.filterMap_nil, List.map_nil, List.nil_append]
    exact SequenceGraph.explore_nil _ _ _ _
  have hGeq : SequenceGraph.new [] (fun _ : CubePermutation3 => (0 : ℕ)) =
      (⟨[(0, [])]⟩ : SequenceGraph ℕ) := by
    unfold SequenceGraph.new
    rw [hreal]
    exact congrArg SequenceGraph.mk hexp
  have hsearch : (SequenceGraph.new [] (fun _ : CubePermutation3 => (0 : ℕ))).search 0
      stm_metric = some ⟨[(0, ⟨[]⟩)]⟩ := by
    rw [hGeq]
    rfl
  exact C1_sequence_solver_correct [] (fun _ => 0) 0 stm_metric ⟨[(0, ⟨[]⟩)]⟩ 0 ⟨[]⟩
    CubePermutation3.identity (fun _ _ _ _ => rfl) hsearch rfl rfl

/-- Witness for C5 on the empty graph and on a concrete one-node graph with
target 1 absent from both. -/
theorem C5_search_missing_target_witness :
    (⟨[]⟩ : SequenceGraph ℕ).search 1 stm_metric = some ⟨[]⟩ ∧
      (⟨[(0, [])]⟩ : SequenceGraph ℕ).search 1 stm_metric = none :=
  ⟨(C5_search_missing_target ⟨[]⟩ 1 stm_metric (by decide)).1 rfl,
    (C5_search_missing_target ⟨[(0, [])]⟩ 1 stm_metric (by decide)).2 (by decide)⟩

/-! ### Claim C3: utilities for the Dijkstra optimality proof -/

theorem popMax_perm {S : Type} :
    ∀ {q : List (S × ℕ)} {x : S × ℕ} {rest : List (S × ℕ)},
      popMax q = some (x, rest) → q.Perm (x :: rest) := by
  intro q
  induction q with
  | nil => intro x rest h; exact absurd h (by simp [popMax])
  | cons e xs ih =>
      intro x rest h
      simp only [popMax] at h
      cases hx : popMax xs with
      | none =>
          simp only [hx] at h
          cases h
          rw [(popMax_none_iff xs).mp hx]
      | some m =>
          obtain ⟨a, r⟩ := m
          simp only [hx] at h
          by_cases hc : a.2 > e.2
          · rw [if_pos hc] at h
            cases h
            exact (List.Perm.cons e (ih hx)).trans (List.Perm.swap x e r)
          · rw [if_neg hc] at h
            cases h
            exact List.Perm.refl _

theorem lookupKey_eraseKey_ne {κ β : Type} [DecidableEq κ] {k k' : κ} (h : k ≠ k') :
    ∀ l : List (κ × β), lookupKey k (eraseKey k' l) = lookupKey k l := by
  intro l
  induction l with
  | nil => rfl
  | cons e rest ih =>
      by_cases he : e.1 = k'
      · rw [show eraseKey k' (e :: rest) = eraseKey k' rest by simp [eraseKey, he]]
        rw [ih]
        rw [show lookupKey k (e :: rest) = lookupKey k rest by
          simp [lookupKey, show ¬ e.1 = k from fun hc => h (hc ▸ he.symm ▸ rfl)]]
      · rw [show eraseKey k' (e :: rest) = e :: eraseKey k' rest by simp [eraseKey, he]]
        by_cases hek : e.1 = k
        · simp [lookupKey, hek]
        · simp only [lookupKey, if_neg hek]
          exact ih

theorem lookupKey_insertKV_self {κ β : Type} [DecidableEq κ] (k : κ) (v : β)
    (l : List (κ × β)) : lookupKey k (insertKV k v l) = some v := by
  simp [insertKV, lookupKey]

theorem lookupKey_insertKV_ne {κ β : Type} [DecidableEq κ] {k k' : κ} (h : k ≠ k')
    (v : β) (l : List (κ × β)) : lookupKey k (insertKV k' v l) = lookupKey k l := by
  simp only [insertKV, lookupKey, if_neg (show ¬ k' = k from fun hc => h hc.symm)]
  exact lookupKey_eraseKey_ne h l

theorem eraseKey_keys_subset {κ β : Type} [DecidableEq κ] (k : κ)
    {l : List (κ × β)} {k' : κ} (h : k' ∈ (eraseKey k l).map Prod.fst) :
    k' ∈ l.map Prod.fst := by
  simp only [List.mem_map] at h ⊢
  obtain ⟨e, he, hk⟩ := h
  exact ⟨e, eraseKey_subset k he, hk⟩

theorem insertKV_keys_cases {κ β : Type} [DecidableEq κ] {k k' : κ} {v : β}
    {l : List (κ × β)} (h : k' ∈ (insertKV k v l).map Prod.fst) :
    k' = k ∨ k' ∈ l.map Prod.fst := by
  simp only [insertKV, List.map_cons, List.mem_cons] at h
  rcases h with h1 | h1
  · exact Or.inl h1
  · exact Or.inr (eraseKey_keys_subset k h1)

theorem insertKV_keys_self {κ β : Type} [DecidableEq κ] (k : κ) (v : β)
    (l : List (κ × β)) : k ∈ (insertKV k v l).map Prod.fst := by
  simp [insertKV]

theorem changePriority_entry_cases {S : Type} [DecidableEq S] {k : S} {p : ℕ}
    {q : List (S × ℕ)} {e : S × ℕ} (h : e ∈ changePriority k p q) :
    (e = (k, p) ∧ k ∈ q.map Prod.fst) ∨ (e ∈ q ∧ e.1 ≠ k) := by
  simp only [changePriority, List.mem_map] at h
  obtain ⟨f, hf, he⟩ := h
  by_cases hc : f.1 = k
  · rw [if_pos hc] at he
    left
    refine ⟨he.symm, ?_⟩
    rw [← hc]
    exact List.mem_map_of_mem Prod.fst hf
  · rw [if_neg hc] at he
    right
    rw [← he]
    exact ⟨hf, hc⟩

theorem changePriority_entry_self {S : Type} [DecidableEq S] {k : S} (p : ℕ)
    {q : List (S × ℕ)} (h : k ∈ q.map Prod.fst) : (k, p) ∈ changePriority k p q := by
  simp only [List.mem_map] at h
  obtain ⟨f, hf, hk⟩ := h
  simp only [changePriority, List.mem_map]
  exact ⟨f, hf, by rw [if_pos hk]⟩

theorem changePriority_entry_other {S : Type} [DecidableEq S] {k : S} (p : ℕ)
    {q : List (S × ℕ)} {e : S × ℕ} (he : e ∈ q) (hne : e.1 ≠ k) :
    e ∈ changePriority k p q := by
  simp only [changePriority, List.mem_map]
  exact ⟨e, he, by rw [if_neg hne]⟩

theorem move_inverse_involution (m : Move) : m.inverse.inverse = m := by
  cases' m with ax r s e
  cases r <;> rfl

theorem moveseq_inverse_involution (s : MoveSequence) : s.inverse.inverse = s := by
  cases' s with l
  simp only [MoveSequence.inverse, List.map_reverse, List.reverse_reverse, List.map_map]
  rw [show Move.inverse ∘ Move.inverse = id from funext move_inverse_involution]
  simp

theorem additive_metric_nil {metric : MoveSequence → ℕ}
    (hadd : ∀ l₁ l₂ : List Move, metric ⟨l₁ ++ l₂⟩ = metric ⟨l₁⟩ + metric ⟨l₂⟩) :
    metric ⟨[]⟩ = 0 := by
  have := hadd [] []
  simpa using this

theorem U64MAX_pos : 0 < U64MAX := by
  unfold U64MAX
  norm_num

/-- An edge can only be stored at a node of the graph. -/
theorem transOf_mem_keys {S : Type} [DecidableEq S] {G : SequenceGraph S} {k : S}
    {e : MoveSequence × S} (h : e ∈ ((lookupKey k G.graph).getD [] : List (MoveSequence × S))) :
    k ∈ G.graph.map Prod.fst := by
  cases hlk : lookupKey k G.graph with
  | none =>
      rw [hlk] at h
      exact absurd h (by simp)
  | some tr =>
      have hs : (lookupKey k G.graph).isSome := by rw [hlk]; rfl
      exact (lookupKey_isSome_iff _ _).mp hs

/-- Priority coherence of the Dijkstra loop: every queue entry either has
priority 0 (distance infinity) and no tentative sequence, or its priority is
`U64MAX - metric` of its tentative sequence, whose metric is below `U64MAX`. -/
def PrioCoherent {S : Type} [DecidableEq S] (metric : MoveSequence → ℕ)
    (queue : List (S × ℕ)) (ms : List (S × MoveSequence)) : Prop :=
  ∀ e ∈ queue, (e.2 = 0 ∧ lookupKey e.1 ms = none) ∨
    (∃ sq, lookupKey e.1 ms = some sq ∧ e.2 = U64MAX - metric sq ∧ metric sq < U64MAX)

/-- An outgoing edge of a visited node is accounted for: its head is visited,
or the relaxation overflowed `u64`, or the tentative map bounds it, or it
leaves the graph's key set. -/
def SequenceGraph.EdgeSpec {S : Type} [DecidableEq S] (G : SequenceGraph S)
    (metric : MoveSequence → ℕ) (ni : List (S × MoveSequence))
    (ms : List (S × MoveSequence)) (c : ℕ) (ed : MoveSequence × S) : Prop :=
  ed.2 ∈ ni.map Prod.fst ∨ U64MAX ≤ c + metric ed.1 ∨
    (∃ sq, lookupKey ed.2 ms = some sq ∧ metric sq ≤ c + metric ed.1) ∨
    ed.2 ∉ G.graph.map Prod.fst

/-- Every visited node stores the inverse of a forward path from the target
to it whose metric is minimal among all such paths, and its outgoing edges
are relaxed. -/
def SequenceGraph.VisitedSpec {S : Type} [DecidableEq S] (G : SequenceGraph S)
    (t : S) (metric : MoveSequence → ℕ) (ni ms : List (S × MoveSequence)) : Prop :=
  ∀ e ∈ ni, SequenceGraph.PathTo G t e.1 (MoveSequence.inverse e.2).moves ∧
    (∀ l, SequenceGraph.PathTo G t e.1 l → metric e.2.inverse ≤ metric ⟨l⟩) ∧
    (∀ ed ∈ ((lookupKey e.1 G.graph).getD [] : List (MoveSequence × S)),
      SequenceGraph.EdgeSpec G metric ni ms (metric e.2.inverse) ed)

/-- The full loop invariant of the Dijkstra search in `intuitive.rs`. -/
def SequenceGraph.DijkstraInv {S : Type} [DecidableEq S] (G : SequenceGraph S)
    (t : S) (metric : MoveSequence → ℕ) (queue : List (S × ℕ))
    (ms ni : List (S × MoveSequence)) : Prop :=
  (∀ e ∈ queue, e.1 ∈ G.graph.map Prod.fst) ∧
  (queue.map Prod.fst).Nodup ∧
  (∀ k ∈ G.graph.map Prod.fst, k ∈ queue.map Prod.fst ∨ k ∈ ni.map Prod.fst) ∧
  (∀ k ∈ queue.map Prod.fst, k ∉ ni.map Prod.fst) ∧
  PrioCoherent metric queue ms ∧
  (∀ e ∈ ms, SequenceGraph.PathTo G t e.1 e.2.moves) ∧
  SequenceGraph.VisitedSpec G t metric ni ms ∧
  (lookupKey t ms = some ⟨[]⟩ ∨ t ∈ ni.map Prod.fst)

/-- Chain argument: under the invariant, any forward path ending outside the
visited set passes, at its first unvisited node with a tentative sequence,
through a queue entry whose tentative metric is at most the path's metric —
unless the path's metric already overflows `u64`. -/
theorem SequenceGraph.dijkstra_chain {S : Type} [DecidableEq S]
    {G : SequenceGraph S} {t : S} {metric : MoveSequence → ℕ}
    (hadd : ∀ l₁ l₂ : List Move, metric ⟨l₁ ++ l₂⟩ = metric ⟨l₁⟩ + metric ⟨l₂⟩)
    {queue : List (S × ℕ)} {ms ni : List (S × MoveSequence)}
    (hinv : SequenceGraph.DijkstraInv G t metric queue ms ni)
    (ht : t ∈ G.graph.map Prod.fst) :
    ∀ {y : S} {l : List Move}, SequenceGraph.PathTo G t y l →
      y ∈ G.graph.map Prod.fst → y ∉ ni.map Prod.fst →
      (∃ z prz sz, (z, prz) ∈ queue ∧ lookupKey z ms = some sz ∧
          metric sz ≤ metric ⟨l⟩) ∨ U64MAX ≤ metric ⟨l⟩ := by
  obtain ⟨hA1, hA2, hA3, hA4, hB1, hC, hD, hE⟩ := hinv
  intro y l hp
  induction hp with
  | nil =>
      intro _ hni
      left
      have hlt : lookupKey t ms = some ⟨[]⟩ := by
        rcases hE with h1 | h1
        · exact h1
        · exact absurd h1 hni
      rcases hA3 t ht with hq | hq
      · simp only [List.mem_map] at hq
        obtain ⟨f, hf, hft⟩ := hq
        obtain ⟨a, b⟩ := f
        refine ⟨t, b, ⟨[]⟩, ?_, hlt, ?_⟩
        · rw [show a = t from hft] at hf
          exact hf
        · rw [additive_metric_nil hadd]
      · exact absurd hq hni
  | cons hpv hedge ih =>
      rename_i v lv g y'
      intro hy hni
      have hvkeys : v ∈ G.graph.map Prod.fst := transOf_mem_keys hedge
      have hsum : metric ⟨lv ++ g.moves⟩ = metric ⟨lv⟩ + metric g := hadd lv g.moves
      by_cases hvni : v ∈ ni.map Prod.fst
      · simp only [List.mem_map] at hvni
        obtain ⟨e, he, hev⟩ := hvni
        obtain ⟨hpath, hopt, hedges⟩ := hD e he
        have hbound : metric e.2.inverse ≤ metric ⟨lv⟩ := by
          apply hopt
          rw [hev]
          exact hpv
        have hes := hedges (g, y') (by rw [hev]; exact hedge)
        rcases hes with h1 | h1 | h1 | h1
        · exact absurd h1 hni
        · right
          have : U64MAX ≤ metric e.2.inverse + metric g := h1
          omega
        · obtain ⟨sq, hsq, hsqle0⟩ := h1
          have hsqle : metric sq ≤ metric e.2.inverse + metric g := hsqle0
          left
          rcases hA3 y' hy with hq | hq
          · simp only [List.mem_map] at hq
            obtain ⟨f, hf, hft⟩ := hq
            obtain ⟨a, b⟩ := f
            refine ⟨y', b, sq, ?_, hsq, ?_⟩
            · rw [show a = y' from hft] at hf
              exact hf
            · omega
          · exact absurd hq hni
        · exact absurd hy h1
      · rcases ih hvkeys hvni with ⟨z, prz, sz, hzq, hzms, hle⟩ | hover
        · left
          exact ⟨z, prz, sz, hzq, hzms, by omega⟩
        · right
          omega

/-- Pop-time optimality: the tentative sequence of the popped node is a
minimum-metric forward path from the target to it. -/
theorem SequenceGraph.pop_optimal {S : Type} [DecidableEq S]
    {G : SequenceGraph S} {t : S} {metric : MoveSequence → ℕ}
    (hadd : ∀ l₁ l₂ : List Move, metric ⟨l₁ ++ l₂⟩ = metric ⟨l₁⟩ + metric ⟨l₂⟩)
    {queue : List (S × ℕ)} {ms ni : List (S × MoveSequence)}
    (hinv : SequenceGraph.DijkstraInv G t metric queue ms ni)
    (ht : t ∈ G.graph.map Prod.fst)
    {se : S × ℕ} {queue' : List (S × ℕ)} (hpop : popMax queue = some (se, queue'))
    {m_s : MoveSequence} (hlk : lookupKey se.1 ms = some m_s) :
    ∀ l, SequenceGraph.PathTo G t se.1 l → metric m_s ≤ metric ⟨l⟩ := by
  intro l hp
  obtain ⟨hA1, hA2, hA3, hA4, hB1, hC, hD, hE⟩ := hinv
  have hse : se ∈ queue := popMax_mem hpop
  have hsekeys : se.1 ∈ G.graph.map Prod.fst := hA1 se hse
  have hseni : se.1 ∉ ni.map Prod.fst :=
    hA4 se.1 (List.mem_map_of_mem Prod.fst hse)
  have hsepr : se.2 = U64MAX - metric m_s ∧ metric m_s < U64MAX := by
    rcases hB1 se hse with ⟨_, hnone⟩ | ⟨sq, hsq, hpr, hlt⟩
    · rw [hnone] at hlk
      exact Option.noConfusion hlk
    · rw [hsq] at hlk
      cases hlk
      exact ⟨hpr, hlt⟩
  rcases SequenceGraph.dijkstra_chain hadd
      ⟨hA1, hA2, hA3, hA4, hB1, hC, hD, hE⟩ ht hp hsekeys hseni with
    ⟨z, prz, sz, hzq, hzms, hle⟩ | hover
  · have hzpr : prz = U64MAX - metric sz ∧ metric sz < U64MAX := by
      rcases hB1 (z, prz) hzq with ⟨_, hnone⟩ | ⟨sq, hsq, hpr, hlt⟩
      · rw [hnone] at hzms
        exact Option.noConfusion hzms
      · rw [hsq] at hzms
        cases hzms
        exact ⟨hpr, hlt⟩
    have hmax : prz ≤ se.2 := popMax_is_max hpop (z, prz) hzq
    omega
  · omega

/-- Facts about a single relaxation step: key preservation, priority
coherence, path invariance, monotone improvement of the tentative map, and
the relaxation postcondition of the processed edge. -/
theorem SequenceGraph.relax_step_facts {S : Type} [DecidableEq S]
    {G : SequenceGraph S} {t : S} {metric : MoveSequence → ℕ}
    (hadd : ∀ l₁ l₂ : List Move, metric ⟨l₁ ++ l₂⟩ = metric ⟨l₁⟩ + metric ⟨l₂⟩)
    {m_s : MoveSequence} {x : S}
    (hpath : SequenceGraph.PathTo G t x m_s.moves)
    {ed : MoveSequence × S}
    (hedge : ed ∈ ((lookupKey x G.graph).getD [] : List (MoveSequence × S)))
    {q : List (S × ℕ)} {ms : List (S × MoveSequence)}
    (hB1 : PrioCoherent metric q ms)
    (hms : ∀ e ∈ ms, SequenceGraph.PathTo G t e.1 e.2.moves) :
    (SequenceGraph.relax metric m_s (q, ms) ed).1.map Prod.fst = q.map Prod.fst ∧
    PrioCoherent metric (SequenceGraph.relax metric m_s (q, ms) ed).1
      (SequenceGraph.relax metric m_s (q, ms) ed).2 ∧
    (∀ e ∈ (SequenceGraph.relax metric m_s (q, ms) ed).2,
        SequenceGraph.PathTo G t e.1 e.2.moves) ∧
    (∀ k sq, lookupKey k ms = some sq →
        ∃ sq', lookupKey k (SequenceGraph.relax metric m_s (q, ms) ed).2 = some sq' ∧
          metric sq' ≤ metric sq ∧ (metric sq = 0 → sq' = sq)) ∧
    (ed.2 ∈ q.map Prod.fst →
        U64MAX ≤ metric m_s + metric ed.1 ∨
        ∃ sq, lookupKey ed.2 (SequenceGraph.relax metric m_s (q, ms) ed).2 = some sq ∧
          metric sq ≤ metric m_s + metric ed.1) := by
  have htentm : metric ⟨m_s.moves ++ ed.1.moves⟩ = metric m_s + metric ed.1 := by
    rw [hadd m_s.moves ed.1.moves]
  cases hq : lookupKey ed.2 q with
  | none =>
      rw [show SequenceGraph.relax metric m_s (q, ms) ed = (q, ms) by
        simp [SequenceGraph.relax, hq]]
      refine ⟨rfl, hB1, hms, ?_, ?_⟩
      · intro k sq hk
        exact ⟨sq, hk, le_refl _, fun _ => rfl⟩
      · intro hmem
        have hsome := (lookupKey_isSome_iff ed.2 q).mpr hmem
        rw [hq] at hsome
        exact absurd hsome (by simp)
  | some ep =>
      have hepq : (ed.2, ep) ∈ q := lookupKey_mem hq
      by_cases hguard : U64MAX - metric ⟨m_s.moves ++ ed.1.moves⟩ > ep
      · have hst : SequenceGraph.relax metric m_s (q, ms) ed =
            (changePriority ed.2 (U64MAX - metric ⟨m_s.moves ++ ed.1.moves⟩) q,
              insertKV ed.2 ⟨m_s.moves ++ ed.1.moves⟩ ms) := by
          simp [SequenceGraph.relax, hq, hguard]
        rw [hst]
        have htlt : metric ⟨m_s.moves ++ ed.1.moves⟩ < U64MAX := by
          omega
        refine ⟨changePriority_keys _ _ _, ?_, ?_, ?_, ?_⟩
        · intro e he
          rcases changePriority_entry_cases he with ⟨hee, _⟩ | ⟨heq, hne⟩
          · right
            refine ⟨⟨m_s.moves ++ ed.1.moves⟩, ?_, ?_, htlt⟩
            · rw [hee]
              exact lookupKey_insertKV_self _ _ _
            · rw [hee]
          · rcases hB1 e heq with ⟨hp0, hnone⟩ | ⟨sq, hsq, hpr, hlt⟩
            · left
              exact ⟨hp0, by rw [lookupKey_insertKV_ne hne _ _]; exact hnone⟩
            · right
              exact ⟨sq, by rw [lookupKey_insertKV_ne hne _ _]; exact hsq, hpr, hlt⟩
        · intro e he
          rcases insertKV_cases he with h1 | h1
          · rw [h1]
            have hed : (ed.1, ed.2) ∈ ((lookupKey x G.graph).getD [] :
                List (MoveSequence × S)) := hedge
            exact SequenceGraph.PathTo.cons hpath hed
          · exact hms e h1
        · intro k sq hk
          by_cases hkc : k = ed.2
          · rcases hB1 (ed.2, ep) hepq with ⟨_, hnone⟩ | ⟨sq₂, hsq₂, hpr, hlt⟩
            · rw [hkc, hnone] at hk
              exact Option.noConfusion hk
            · rw [hkc, hsq₂] at hk
              cases hk
              have hless : metric ⟨m_s.moves ++ ed.1.moves⟩ < metric sq := by
                omega
              refine ⟨⟨m_s.moves ++ ed.1.moves⟩,
                by rw [hkc]; exact lookupKey_insertKV_self _ _ _, ?_, ?_⟩
              · omega
              · intro h0
                exact absurd hless (by omega)
          · exact ⟨sq, by rw [lookupKey_insertKV_ne hkc _ _]; exact hk, le_refl _,
              fun _ => rfl⟩
        · intro _
          right
          exact ⟨⟨m_s.moves ++ ed.1.moves⟩, lookupKey_insertKV_self _ _ _, by omega⟩
      · rw [show SequenceGraph.relax metric m_s (q, ms) ed = (q, ms) by
          simp [SequenceGraph.relax, hq]; intro hc; exact absurd hc hguard]
        refine ⟨rfl, hB1, hms, ?_, ?_⟩
        · intro k sq hk
          exact ⟨sq, hk, le_refl _, fun _ => rfl⟩
        · intro _
          rcases hB1 (ed.2, ep) hepq with ⟨hp0, _⟩ | ⟨sq₂, hsq₂, hpr, hlt⟩
          · left
            omega
          · by_cases hov : U64MAX ≤ metric m_s + metric ed.1
            · exact Or.inl hov
            · right
              exact ⟨sq₂, hsq₂, by omega⟩

/-- The relaxation fold over the popped node's transitions: keys are
preserved, coherence and paths are maintained, tentative sequences only
improve (and zero-metric ones are never replaced), and every processed edge
whose head is still queued ends up relaxed or overflowed. -/
theorem SequenceGraph.relax_fold_master {S : Type} [DecidableEq S]
    {G : SequenceGraph S} {t : S} {metric : MoveSequence → ℕ}
    (hadd : ∀ l₁ l₂ : List Move, metric ⟨l₁ ++ l₂⟩ = metric ⟨l₁⟩ + metric ⟨l₂⟩)
    {m_s : MoveSequence} {x : S}
    (hpath : SequenceGraph.PathTo G t x m_s.moves) :
    ∀ (tr : List (MoveSequence × S)),
      (∀ e ∈ tr, e ∈ ((lookupKey x G.graph).getD [] : List (MoveSequence × S))) →
      ∀ (q : List (S × ℕ)) (ms : List (S × MoveSequence)),
      PrioCoherent metric q ms →
      (∀ e ∈ ms, SequenceGraph.PathTo G t e.1 e.2.moves) →
      (tr.foldl (SequenceGraph.relax metric m_s) (q, ms)).1.map Prod.fst =
          q.map Prod.fst ∧
      PrioCoherent metric (tr.foldl (SequenceGraph.relax metric m_s) (q, ms)).1
        (tr.foldl (SequenceGraph.relax metric m_s) (q, ms)).2 ∧
      (∀ e ∈ (tr.foldl (SequenceGraph.relax metric m_s) (q, ms)).2,
          SequenceGraph.PathTo G t e.1 e.2.moves) ∧
      (∀ k sq, lookupKey k ms = some sq →
          ∃ sq', lookupKey k (tr.foldl (SequenceGraph.relax metric m_s) (q, ms)).2 =
              some sq' ∧ metric sq' ≤ metric sq ∧ (metric sq = 0 → sq' = sq)) ∧
      (∀ ed ∈ tr, ed.2 ∈ q.map Prod.fst →
          U64MAX ≤ metric m_s + metric ed.1 ∨
          ∃ sq, lookupKey ed.2 (tr.foldl (SequenceGraph.relax metric m_s) (q, ms)).2 =
              some sq ∧ metric sq ≤ metric m_s + metric ed.1) := by
  intro tr
  induction tr with
  | nil =>
      intro _ q ms hB1 hms
      refine ⟨rfl, hB1, hms, ?_, ?_⟩
      · intro k sq hk
        exact ⟨sq, hk, le_refl _, fun _ => rfl⟩
      · intro ed hed
        exact absurd hed (by simp)
  | cons ed tr ih =>
      intro htr q ms hB1 hms
      have hedge := htr ed (List.mem_cons_self _ _)
      obtain ⟨hkeys₁, hB1₁, hms₁, himp₁, hed₁⟩ :=
        SequenceGraph.relax_step_facts hadd hpath hedge hB1 hms
      have htr' : ∀ e ∈ tr,
          e ∈ ((lookupKey x G.graph).getD [] : List (MoveSequence × S)) :=
        fun e he => htr e (List.mem_cons_of_mem ed he)
      obtain ⟨hkeysR, hB1R, hmsR, himpR, hedR⟩ :=
        ih htr' (SequenceGraph.relax metric m_s (q, ms) ed).1
          (SequenceGraph.relax metric m_s (q, ms) ed).2 hB1₁ hms₁
      have hres : (ed :: tr).foldl (SequenceGraph.relax metric m_s) (q, ms) =
          tr.foldl (SequenceGraph.relax metric m_s)
            ((SequenceGraph.relax metric m_s (q, ms) ed).1,
             (SequenceGraph.relax metric m_s (q, ms) ed).2) := rfl
      rw [hres]
      refine ⟨?_, hB1R, hmsR, ?_, ?_⟩
      · rw [hkeysR, hkeys₁]
      · intro k sq hk
        obtain ⟨sq₁, hlk₁, hle₁, h0₁⟩ := himp₁ k sq hk
        obtain ⟨sq', hlk', hle', h0'⟩ := himpR k sq₁ hlk₁
        refine ⟨sq', hlk', le_trans hle' hle₁, ?_⟩
        intro h0
        have hsq1 : sq₁ = sq := h0₁ h0
        have hm0 : metric sq₁ = 0 := by rw [hsq1, h0]
        rw [h0' hm0, hsq1]
      · intro ed' hed' hmem
        rcases List.mem_cons.mp hed' with h1 | h1
        · subst h1
          rcases hed₁ hmem with hov | ⟨sq, hlk, hle⟩
          · exact Or.inl hov
          · obtain ⟨sq', hlk', hle', _⟩ := himpR ed'.2 sq hlk
            exact Or.inr ⟨sq', hlk', le_trans hle' hle⟩
        · have hmem₁ : ed'.2 ∈
              (SequenceGraph.relax metric m_s (q, ms) ed).1.map Prod.fst := by
            rw [hkeys₁]
            exact hmem
          exact hedR ed' h1 hmem₁

theorem insertKV_keys_iff {κ β : Type} [DecidableEq κ] (k' k : κ) (v : β)
    (l : List (κ × β)) :
    k' ∈ (insertKV k v l).map Prod.fst ↔ k' = k ∨ k' ∈ l.map Prod.fst := by
  constructor
  · exact insertKV_keys_cases
  · intro h
    by_cases hks : k' = k
    · rw [hks]
      exact insertKV_keys_self _ _ _
    · apply (lookupKey_isSome_iff _ _).mp
      rw [lookupKey_insertKV_ne hks]
      apply (lookupKey_isSome_iff _ _).mpr
      rcases h with h | h
      · exact absurd h hks
      · exact h

/-- One iteration of the Dijkstra loop preserves the invariant: the popped
node is moved into the visited table with the inverse of its tentative
sequence, and its outgoing edges are relaxed. -/
theorem SequenceGraph.dijkstra_step_inv {S : Type} [DecidableEq S]
    {G : SequenceGraph S} {t : S} {metric : MoveSequence → ℕ}
    (hadd : ∀ l₁ l₂ : List Move, metric ⟨l₁ ++ l₂⟩ = metric ⟨l₁⟩ + metric ⟨l₂⟩)
    (ht : t ∈ G.graph.map Prod.fst)
    {queue : List (S × ℕ)} {ms ni : List (S × MoveSequence)}
    (hinv : SequenceGraph.DijkstraInv G t metric queue ms ni)
    {se : S × ℕ} {queue' : List (S × ℕ)} (hpop : popMax queue = some (se, queue'))
    {m_s : MoveSequence} (hlk : lookupKey se.1 ms = some m_s) :
    SequenceGraph.DijkstraInv G t metric
      ((((lookupKey se.1 G.graph).getD [] : List (MoveSequence × S)).foldl
        (SequenceGraph.relax metric m_s) (queue', eraseKey se.1 ms)).1)
      ((((lookupKey se.1 G.graph).getD [] : List (MoveSequence × S)).foldl
        (SequenceGraph.relax metric m_s) (queue', eraseKey se.1 ms)).2)
      (insertKV se.1 m_s.inverse ni) := by
  obtain ⟨hA1, hA2, hA3, hA4, hB1, hC, hD, hE⟩ := hinv
  have hperm : queue.Perm (se :: queue') := popMax_perm hpop
  have hkeysperm : (queue.map Prod.fst).Perm (se.1 :: queue'.map Prod.fst) := by
    simpa using hperm.map Prod.fst
  have hnodup1 : (se.1 :: queue'.map Prod.fst).Nodup := hkeysperm.nodup_iff.mp hA2
  have hse_not : se.1 ∉ queue'.map Prod.fst := (List.nodup_cons.mp hnodup1).1
  have hnodupQ : (queue'.map Prod.fst).Nodup := (List.nodup_cons.mp hnodup1).2
  have hqmem : ∀ k, k ∈ queue.map Prod.fst ↔ k = se.1 ∨ k ∈ queue'.map Prod.fst := by
    intro k
    rw [hkeysperm.mem_iff]
    simp
  have hQ'sub : ∀ e ∈ queue', e ∈ queue := popMax_rest_subset hpop
  have hQ'ne : ∀ e ∈ queue', e.1 ≠ se.1 := by
    intro e he hc
    apply hse_not
    rw [← hc]
    exact List.mem_map_of_mem Prod.fst he
  have hmm : (se.1, m_s) ∈ ms := lookupKey_mem hlk
  have hpath_ms : SequenceGraph.PathTo G t se.1 m_s.moves := hC (se.1, m_s) hmm
  have hB1' : PrioCoherent metric queue' (eraseKey se.1 ms) := by
    intro e he
    rcases hB1 e (hQ'sub e he) with ⟨h0, hnone⟩ | ⟨sq, hsq, hpr, hlt⟩
    · left
      exact ⟨h0, by rw [lookupKey_eraseKey_ne (hQ'ne e he)]; exact hnone⟩
    · right
      exact ⟨sq, by rw [lookupKey_eraseKey_ne (hQ'ne e he)]; exact hsq, hpr, hlt⟩
  have hC' : ∀ e ∈ eraseKey se.1 ms, SequenceGraph.PathTo G t e.1 e.2.moves :=
    fun e he => hC e (eraseKey_subset se.1 he)
  obtain ⟨hkeysR, hB1R, hmsR, himpR, hedR⟩ :=
    SequenceGraph.relax_fold_master hadd hpath_ms
      ((lookupKey se.1 G.graph).getD []) (fun _ he => he)
      queue' (eraseKey se.1 ms) hB1' hC'
  have hni'mem : ∀ k, k ∈ (insertKV se.1 m_s.inverse ni).map Prod.fst ↔
      k = se.1 ∨ k ∈ ni.map Prod.fst := fun k => insertKV_keys_iff k se.1 _ ni
  have hopt := SequenceGraph.pop_optimal hadd
    ⟨hA1, hA2, hA3, hA4, hB1, hC, hD, hE⟩ ht hpop hlk
  refine ⟨?_, ?_, ?_, ?_, hB1R, hmsR, ?_, ?_⟩
  · intro e he
    have hk : e.1 ∈ queue'.map Prod.fst := by
      rw [← hkeysR]
      exact List.mem_map_of_mem Prod.fst he
    simp only [List.mem_map] at hk
    obtain ⟨f, hf, hfe⟩ := hk
    rw [← hfe]
    exact hA1 f (hQ'sub f hf)
  · rw [hkeysR]
    exact hnodupQ
  · intro k hk
    rcases hA3 k hk with hq | hn
    · rcases (hqmem k).mp hq with h | h
      · right
        exact (hni'mem k).mpr (Or.inl h)
      · left
        rw [hkeysR]
        exact h
    · right
      exact (hni'mem k).mpr (Or.inr hn)
  · intro k hk
    rw [hkeysR] at hk
    intro hmem
    rcases (hni'mem k).mp hmem with h | h
    · rw [h] at hk
      exact hse_not hk
    · exact hA4 k ((hqmem k).mpr (Or.inr hk)) h
  · intro e he
    rcases insertKV_cases he with h1 | h1
    · subst h1
      refine ⟨?_, ?_, ?_⟩
      · show SequenceGraph.PathTo G t se.1 (m_s.inverse.inverse).moves
        rw [moveseq_inverse_involution]
        exact hpath_ms
      · intro l hp
        have hcc : (se.1, m_s.inverse).2.inverse = m_s :=
          moveseq_inverse_involution m_s
        rw [hcc]
        exact hopt l hp
      · intro ed hed
        have hcc : (se.1, m_s.inverse).2.inverse = m_s :=
          moveseq_inverse_involution m_s
        rw [hcc]
        by_cases hq : ed.2 ∈ queue'.map Prod.fst
        · rcases hedR ed hed hq with hov | ⟨sq, hlkq, hle⟩
          · exact Or.inr (Or.inl hov)
          · exact Or.inr (Or.inr (Or.inl ⟨sq, hlkq, hle⟩))
        · by_cases hg : ed.2 ∈ G.graph.map Prod.fst
          · rcases hA3 ed.2 hg with hqq | hnn
            · rcases (hqmem ed.2).mp hqq with h | h
              · exact Or.inl ((hni'mem ed.2).mpr (Or.inl h))
              · exact absurd h hq
            · exact Or.inl ((hni'mem ed.2).mpr (Or.inr hnn))
          · exact Or.inr (Or.inr (Or.inr hg))
    · obtain ⟨hpath_e, hopt_e, hedges_e⟩ := hD e h1
      refine ⟨hpath_e, hopt_e, ?_⟩
      intro ed hed
      rcases hedges_e ed hed with hni | hov | ⟨sq, hlks, hle⟩ | hout
      · exact Or.inl ((hni'mem ed.2).mpr (Or.inr hni))
      · exact Or.inr (Or.inl hov)
      · by_cases hc : ed.2 = se.1
        · exact Or.inl ((hni'mem ed.2).mpr (Or.inl hc))
        · have hlk1 : lookupKey ed.2 (eraseKey se.1 ms) = some sq := by
            rw [lookupKey_eraseKey_ne hc]
            exact hlks
          obtain ⟨sq', hlk', hle', _⟩ := himpR ed.2 sq hlk1
          exact Or.inr (Or.inr (Or.inl ⟨sq', hlk', le_trans hle' hle⟩))
      · exact Or.inr (Or.inr (Or.inr hout))
  · by_cases hc : t = se.1
    · right
      exact (hni'mem t).mpr (Or.inl hc)
    · rcases hE with h1 | h1
      · left
        have h2 : lookupKey t (eraseKey se.1 ms) = some ⟨[]⟩ := by
          rw [lookupKey_eraseKey_ne hc]
          exact h1
        obtain ⟨sq', hlk', _, h0'⟩ := himpR t ⟨[]⟩ h2
        have hz : sq' = ⟨[]⟩ := h0' (additive_metric_nil hadd)
        rw [hz] at hlk'
        exact hlk'
      · right
        exact (hni'mem t).mpr (Or.inr h1)

/-- Running the Dijkstra loop from an invariant state yields a visited table
whose every entry stores the inverse of a minimum-metric forward path. -/
theorem SequenceGraph.searchLoop_dijkstra {S : Type} [DecidableEq S]
    {G : SequenceGraph S} {t : S} {metric : MoveSequence → ℕ}
    (hadd : ∀ l₁ l₂ : List Move, metric ⟨l₁ ++ l₂⟩ = metric ⟨l₁⟩ + metric ⟨l₂⟩)
    (ht : t ∈ G.graph.map Prod.fst) :
    ∀ (fuel : ℕ) (queue : List (S × ℕ)) (ms ni : List (S × MoveSequence))
      (solver : SequenceSolver S),
      SequenceGraph.DijkstraInv G t metric queue ms ni →
      SequenceGraph.searchLoop G metric fuel queue ms ni = some solver →
      ∀ e ∈ solver.node_info,
        SequenceGraph.PathTo G t e.1 (MoveSequence.inverse e.2).moves ∧
        ∀ l, SequenceGraph.PathTo G t e.1 l → metric e.2.inverse ≤ metric ⟨l⟩ := by
  intro fuel
  induction fuel with
  | zero =>
      intro queue ms ni solver _ hrun
      exact absurd hrun (by simp [SequenceGraph.searchLoop])
  | succ fuel ih =>
      intro queue ms ni solver hinv hrun
      cases hpop : popMax queue with
      | none =>
          simp only [SequenceGraph.searchLoop, hpop] at hrun
          cases hrun
          intro e he
          obtain ⟨_, _, _, _, _, _, hD, _⟩ := hinv
          obtain ⟨h1, h2, _⟩ := hD e he
          exact ⟨h1, h2⟩
      | some pr =>
          obtain ⟨se, queue'⟩ := pr
          cases hlkm : lookupKey se.1 ms with
          | none =>
              simp only [SequenceGraph.searchLoop, hpop, hlkm] at hrun
              exact Option.noConfusion hrun
          | some m_s =>
              simp only [SequenceGraph.searchLoop, hpop, hlkm] at hrun
              exact ih _ _ _ solver
                (SequenceGraph.dijkstra_step_inv hadd ht hinv hpop hlkm) hrun

/-- C3 (amended): for a solver built by `SequenceGraph::search` under an
additive cost metric and duplicate-free graph keys, the metric of the
*inverse* of the stored sequence for `s` (the forward sequence) is the
minimum of the metric over all edge-label concatenations along graph paths
from the target signature to `s`; the claim as stated (cost of the stored
sequence, minimal over paths from `s` to the target) is refuted by
`C3_counterexample`. -/
theorem C3_search_minimality {S : Type} [DecidableEq S] (G : SequenceGraph S)
    (t : S) (metric : MoveSequence → ℕ) (solver : SequenceSolver S) (s : S)
    (m : MoveSequence)
    (hadd : ∀ l₁ l₂ : List Move, metric ⟨l₁ ++ l₂⟩ = metric ⟨l₁⟩ + metric ⟨l₂⟩)
    (hnodup : (G.graph.map Prod.fst).Nodup)
    (hsearch : G.search t metric = some solver)
    (hsolve : solver.solve s = some m) :
    IsLeast {c | ∃ l, SequenceGraph.PathTo G t s l ∧ c = metric ⟨l⟩}
      (metric m.inverse) := by
  have hsolve' : lookupKey s solver.node_info = some m := hsolve
  by_cases ht : t ∈ G.graph.map Prod.fst
  · have hs2 : SequenceGraph.searchLoop G metric
        ((changePriority t U64MAX
          (G.graph.map (fun node => (node.1, 0)))).length + 1)
        (changePriority t U64MAX (G.graph.map (fun node => (node.1, 0))))
        [(t, ⟨[]⟩)] [] = some solver := hsearch
    have hq0keys : (changePriority t U64MAX
        (G.graph.map (fun node => (node.1, (0:ℕ))))).map Prod.fst =
        G.graph.map Prod.fst := by
      rw [changePriority_keys]
      simp
    have hinv0 : SequenceGraph.DijkstraInv G t metric
        (changePriority t U64MAX (G.graph.map (fun node => (node.1, 0))))
        [(t, ⟨[]⟩)] [] := by
      refine ⟨?_, ?_, ?_, ?_, ?_, ?_, ?_, ?_⟩
      · intro e he
        rcases changePriority_entry_cases he with ⟨hee, _⟩ | ⟨heq, _⟩
        · rw [hee]
          exact ht
        · simp only [List.mem_map] at heq
          obtain ⟨node, hn, he2⟩ := heq
          rw [← he2]
          exact List.mem_map_of_mem Prod.fst hn
      · rw [hq0keys]
        exact hnodup
      · intro k hk
        left
        rw [hq0keys]
        exact hk
      · intro k _
        simp
      · intro e he
        rcases changePriority_entry_cases he with ⟨hee, _⟩ | ⟨heq, hne⟩
        · right
          refine ⟨⟨[]⟩, ?_, ?_, ?_⟩
          · rw [hee]
            simp [lookupKey]
          · rw [hee, additive_metric_nil hadd]
            show U64MAX = U64MAX - 0
            omega
          · rw [additive_metric_nil hadd]
            exact U64MAX_pos
        · left
          simp only [List.mem_map] at heq
          obtain ⟨node, hn, he2⟩ := heq
          constructor
          · rw [← he2]
          · simp [lookupKey, show ¬ t = e.1 from fun hc2 => hne hc2.symm]
      · intro e he
        have he2 := List.mem_singleton.mp he
        rw [he2]
        exact SequenceGraph.PathTo.nil
      · intro e he
        exact absurd he (by simp)
      · left
        simp [lookupKey]
    have hres := SequenceGraph.searchLoop_dijkstra hadd ht _ _ _ _ solver hinv0 hs2
    have hmem : (s, m) ∈ solver.node_info := lookupKey_mem hsolve'
    obtain ⟨hp, hmin⟩ := hres (s, m) hmem
    constructor
    · exact ⟨(m.inverse).moves, hp, rfl⟩
    · intro c hc
      obtain ⟨l, hpl, hcl⟩ := hc
      rw [hcl]
      exact hmin l hpl
  · by_cases hg : G.graph = []
    · have hemp := (search_missing_target_aux G t metric ht).1 hg
      rw [hemp] at hsearch
      cases hsearch
      exact absurd hsolve' (by simp [lookupKey])
    · have hnone := (search_missing_target_aux G t metric ht).2 hg
      rw [hnone] at hsearch
      exact Option.noConfusion hsearch

/-! ### Claim C3: concrete instances -/

/-- The move `U` (outer `UD` layer, normal). -/
def c3_move_U : Move := ⟨.UD, .Normal, 0, 1⟩

/-- The move `U'`. -/
def c3_move_Ui : Move := ⟨.UD, .Inverse, 0, 1⟩

/-- The move `F`. -/
def c3_move_F : Move := ⟨.FB, .Normal, 0, 1⟩

/-- An additive per-move cost: `U'` costs 100, `F` costs 7, all other moves
cost 1. -/
def c3_weight (m : Move) : ℕ :=
  if m = c3_move_Ui then 100 else if m = c3_move_F then 7 else 1

/-- The additive metric summing `c3_weight` over the moves of a sequence. -/
def c3_metric (seq : MoveSequence) : ℕ := (seq.moves.map c3_weight).sum

theorem c3_metric_additive (l₁ l₂ : List Move) :
    c3_metric ⟨l₁ ++ l₂⟩ = c3_metric ⟨l₁⟩ + c3_metric ⟨l₂⟩ := by
  simp [c3_metric]

/-- A two-node sequence graph: an edge `0 → 1` labelled `U` and an edge
`1 → 0` labelled `F`. -/
def c3_graph : SequenceGraph ℕ :=
  ⟨[(0, [(⟨[c3_move_U]⟩, 1)]), (1, [(⟨[c3_move_F]⟩, 0)])]⟩

/-- Counterexample to C3 as stated: searching `c3_graph` for target `0`
stores the sequence `U'` for signature `1` (metric 100), but the metric
minimum over paths between `1` and the target is 7 (the path labelled `F`,
in the claim's direction from `s` to the target), so the cost of the stored
sequence is not that minimum: it is the minimum of the metric of the
*inverses* of the stored sequences over paths from the target. -/
theorem C3_counterexample :
    (c3_graph.search 0 c3_metric).bind (fun sol => sol.solve 1) =
        some ⟨[c3_move_Ui]⟩ ∧
    SequenceGraph.PathTo c3_graph 1 0 [c3_move_F] ∧
    c3_metric ⟨[c3_move_F]⟩ = 7 ∧ c3_metric ⟨[c3_move_Ui]⟩ = 100 ∧
    ¬ IsLeast {c | ∃ l, SequenceGraph.PathTo c3_graph 1 0 l ∧ c = c3_metric ⟨l⟩}
        (c3_metric ⟨[c3_move_Ui]⟩) := by
  have hedge : (⟨[c3_move_F]⟩, 0) ∈
      ((lookupKey 1 c3_graph.graph).getD [] : List (MoveSequence × ℕ)) := by
    simp [c3_graph, lookupKey]
  have hpathF : SequenceGraph.PathTo c3_graph 1 0 [c3_move_F] :=
    SequenceGraph.PathTo.cons SequenceGraph.PathTo.nil hedge
  refine ⟨rfl, hpathF, rfl, rfl, ?_⟩
  intro hle
  obtain ⟨_, hlb⟩ := hle
  have h7 : (7:ℕ) ∈ {c | ∃ l, SequenceGraph.PathTo c3_graph 1 0 l ∧
      c = c3_metric ⟨l⟩} := ⟨[c3_move_F], hpathF, rfl⟩
  have h100 := hlb h7
  rw [show c3_metric ⟨[c3_move_Ui]⟩ = 100 from rfl] at h100
  omega

/-- Witness for the amended C3 on `c3_graph` with target `0` and queried
signature `1`: all hypotheses hold by computation and the stored sequence is
`U'`, whose inverse `U` has the minimal metric 1 over paths `0 → 1`. -/
theorem C3_search_minimality_witness :
    IsLeast {c | ∃ l, SequenceGraph.PathTo c3_graph 0 1 l ∧ c = c3_metric ⟨l⟩}
      (c3_metric (⟨[c3_move_Ui]⟩ : MoveSequence).inverse) :=
  C3_search_minimality c3_graph 0 c3_metric
    ⟨[(1, ⟨[c3_move_Ui]⟩), (0, ⟨[]⟩)]⟩ 1 ⟨[c3_move_Ui]⟩
    c3_metric_additive (by decide) rfl rfl

/-! ### Claim C7: the algorithmic solver -/

/-- `algorithmic.rs` `AlgorithmicSolver`: a table from signatures to move
sequences. -/
structure AlgorithmicSolver (S : Type) : Type where
  node_info : List (S × MoveSequence)

/-- The expansion of the pre/post move sets in `AlgorithmicSolver::new`:
every sequence contributes its inverse, its double and itself, the list is
canonicalised, the empty sequence is appended, and the result is sorted
and deduplicated.  (`MoveSequence::inverse/op/canonicalise` and the
ordering are not under `src/`; they are modelled from the spec.) -/
def AlgorithmicSolver.real_moves (mvs : List MoveSequence) : List MoveSequence :=
  dedup_consecutive
    (List.insertionSort MoveSequence.le
      (((mvs.map (fun mv => [mv.inverse, mv.op mv, mv])).join.map
          MoveSequence.canonicalise) ++ [⟨[]⟩]))

/-- The insert-or-improve table update of `AlgorithmicSolver::new`: a vacant
entry is filled, an occupied entry is replaced only when the new metric is
strictly smaller. -/
def AlgorithmicSolver.insertEntry {S : Type} [DecidableEq S]
    (metric : MoveSequence → ℕ) (ni : List (S × MoveSequence)) (sig : S)
    (v : MoveSequence) : List (S × MoveSequence) :=
  match lookupKey sig ni with
  | none => insertKV sig v ni
  | some old => if metric v < metric old then insertKV sig v ni else ni

/-- `algorithmic.rs` `AlgorithmicSolver::new` (`graph_name` is only used for
logging in the source). -/
def AlgorithmicSolver.new {S : Type} [DecidableEq S] (graph_name : String)
    (alg_set pre_moves post_moves : List MoveSequence)
    (signature : CubePermutation3 → S) (metric : MoveSequence → ℕ) :
    AlgorithmicSolver S :=
  ⟨alg_set.foldl (fun ni alg =>
      (AlgorithmicSolver.real_moves pre_moves).foldl (fun ni pre_move =>
        (AlgorithmicSolver.real_moves post_moves).foldl (fun ni post_move =>
          AlgorithmicSolver.insertEntry metric ni
            (signature (CubePermutation3.from_move_sequence
              ((post_move.op alg).op pre_move)))
            ((post_move.op alg).inverse)) ni) ni) []⟩

/-- `algorithmic.rs` `AlgorithmicSolver::solve`. -/
def AlgorithmicSolver.solve {S : Type} [DecidableEq S]
    (solver : AlgorithmicSolver S) (signature : S) : Option MoveSequence :=
  lookupKey signature solver.node_info

/-- The signature computed for the triple `(alg, pre, post)` in the builder
loop. -/
def AlgorithmicSolver.entry_sig {S : Type} (signature : CubePermutation3 → S)
    (x : MoveSequence × MoveSequence × MoveSequence) : S :=
  signature (CubePermutation3.from_move_sequence ((x.2.2.op x.1).op x.2.1))

/-- The value stored for the triple `(alg, pre, post)` in the builder loop. -/
def AlgorithmicSolver.entry_val (x : MoveSequence × MoveSequence × MoveSequence) :
    MoveSequence := (x.2.2.op x.1).inverse

/-- The builder loop body as a step over triples. -/
def AlgorithmicSolver.triple_step {S : Type} [DecidableEq S]
    (signature : CubePermutation3 → S) (metric : MoveSequence → ℕ)
    (ni : List (S × MoveSequence)) (x : MoveSequence × MoveSequence × MoveSequence) :
    List (S × MoveSequence) :=
  AlgorithmicSolver.insertEntry metric ni (AlgorithmicSolver.entry_sig signature x)
    (AlgorithmicSolver.entry_val x)

theorem foldl_bind_fold {α β γ : Type} (l : List α) (f : α → List β) (g : γ → β → γ) :
    ∀ i : γ, (l.bind f).foldl g i = l.foldl (fun acc a => (f a).foldl g acc) i := by
  induction l with
  | nil => intro i; rfl
  | cons a l ih =>
      intro i
      simp only [List.cons_bind, List.foldl_append, List.foldl_cons]
      exact ih _

/-- The triple-nested builder loop is the fold of `triple_step` over the
flattened list of triples. -/
theorem AlgorithmicSolver.new_eq_triples {S : Type} [DecidableEq S]
    (graph_name : String) (alg_set pre_moves post_moves : List MoveSequence)
    (signature : CubePermutation3 → S) (metric : MoveSequence → ℕ) :
    (AlgorithmicSolver.new graph_name alg_set pre_moves post_moves signature
        metric).node_info =
      (alg_set.bind (fun a => (AlgorithmicSolver.real_moves pre_moves).bind
        (fun p => (AlgorithmicSolver.real_moves post_moves).map
          (fun q => (a, p, q))))).foldl
        (AlgorithmicSolver.triple_step signature metric) [] := by
  simp only [foldl_bind_fold, List.foldl_map]
  rfl

/-- Facts about a single insert-or-improve update: provenance of entries,
a bound on the updated key, and monotone improvement of existing keys. -/
theorem AlgorithmicSolver.insertEntry_facts {S : Type} [DecidableEq S]
    (metric : MoveSequence → ℕ) (ni : List (S × MoveSequence)) (sig : S)
    (v : MoveSequence) :
    (∀ e ∈ AlgorithmicSolver.insertEntry metric ni sig v,
        e = (sig, v) ∨ e ∈ ni) ∧
    (∃ w, lookupKey sig (AlgorithmicSolver.insertEntry metric ni sig v) = some w ∧
        metric w ≤ metric v) ∧
    (∀ k u, lookupKey k ni = some u →
        ∃ u', lookupKey k (AlgorithmicSolver.insertEntry metric ni sig v) =
            some u' ∧ metric u' ≤ metric u) := by
  cases hlk : lookupKey sig ni with
  | none =>
      have hstep : AlgorithmicSolver.insertEntry metric ni sig v = insertKV sig v ni := by
        simp [AlgorithmicSolver.insertEntry, hlk]
      rw [hstep]
      refine ⟨fun e he => insertKV_cases he, ⟨v, lookupKey_insertKV_self _ _ _, le_refl _⟩, ?_⟩
      intro k u hu
      by_cases hks : k = sig
      · rw [hks, hlk] at hu
        exact Option.noConfusion hu
      · exact ⟨u, by rw [lookupKey_insertKV_ne hks]; exact hu, le_refl _⟩
  | some old =>
      by_cases hm : metric v < metric old
      · have hstep : AlgorithmicSolver.insertEntry metric ni sig v =
            insertKV sig v ni := by
          simp [AlgorithmicSolver.insertEntry, hlk, hm]
        rw [hstep]
        refine ⟨fun e he => insertKV_cases he,
          ⟨v, lookupKey_insertKV_self _ _ _, le_refl _⟩, ?_⟩
        intro k u hu
        by_cases hks : k = sig
        · rw [hks, hlk] at hu
          cases hu
          exact ⟨v, by rw [hks]; exact lookupKey_insertKV_self _ _ _, le_of_lt hm⟩
        · exact ⟨u, by rw [lookupKey_insertKV_ne hks]; exact hu, le_refl _⟩
      · have hstep : AlgorithmicSolver.insertEntry metric ni sig v = ni := by
          simp [AlgorithmicSolver.insertEntry, hlk, hm]
        rw [hstep]
        refine ⟨fun e he => Or.inr he, ⟨old, hlk, by omega⟩, ?_⟩
        intro k u hu
        exact ⟨u, hu, le_refl _⟩

/-- Fold of the builder step over a triple list: every table entry comes
from a processed triple, every processed triple's signature is bounded by
its value's metric, and existing entries only improve. -/
theorem AlgorithmicSolver.triple_fold_master {S : Type} [DecidableEq S]
    (signature : CubePermutation3 → S) (metric : MoveSequence → ℕ) :
    ∀ (tl : List (MoveSequence × MoveSequence × MoveSequence))
      (ni : List (S × MoveSequence)),
      (∀ e ∈ tl.foldl (AlgorithmicSolver.triple_step signature metric) ni,
          (∃ x ∈ tl, e.1 = AlgorithmicSolver.entry_sig signature x ∧
            e.2 = AlgorithmicSolver.entry_val x) ∨ e ∈ ni) ∧
      (∀ x ∈ tl, ∃ v, lookupKey (AlgorithmicSolver.entry_sig signature x)
          (tl.foldl (AlgorithmicSolver.triple_step signature metric) ni) = some v ∧
          metric v ≤ metric (AlgorithmicSolver.entry_val x)) ∧
      (∀ k u, lookupKey k ni = some u →
          ∃ u', lookupKey k
              (tl.foldl (AlgorithmicSolver.triple_step signature metric) ni) =
              some u' ∧ metric u' ≤ metric u) := by
  intro tl
  induction tl with
  | nil =>
      intro ni
      refine ⟨fun e he => Or.inr he, ?_, ?_⟩
      · intro x hx
        exact absurd hx (by simp)
      · intro k u hu
        exact ⟨u, hu, le_refl _⟩
  | cons x tl ih =>
      intro ni
      obtain ⟨hprov, hkey, himp⟩ := AlgorithmicSolver.insertEntry_facts metric ni
        (AlgorithmicSolver.entry_sig signature x) (AlgorithmicSolver.entry_val x)
      obtain ⟨ihprov, ihbound, ihimp⟩ :=
        ih (AlgorithmicSolver.triple_step signature metric ni x)
      refine ⟨?_, ?_, ?_⟩
      · intro e he
        rcases ihprov e he with ⟨y, hy, h1, h2⟩ | h1
        · exact Or.inl ⟨y, List.mem_cons_of_mem x hy, h1, h2⟩
        · rcases hprov e h1 with h2 | h2
          · left
            refine ⟨x, List.mem_cons_self _ _, ?_, ?_⟩
            · rw [h2]
            · rw [h2]
          · exact Or.inr h2
      · intro y hy
        rcases List.mem_cons.mp hy with h1 | h1
        · subst h1
          obtain ⟨w, hw, hwle⟩ := hkey
          obtain ⟨w', hw', hwle'⟩ := ihimp _ w hw
          exact ⟨w', hw', le_trans hwle' hwle⟩
        · exact ihbound y h1
      · intro k u hu
        obtain ⟨u₁, hu₁, hle₁⟩ := himp k u hu
        obtain ⟨u', hu', hle'⟩ := ihimp k u₁ hu₁
        exact ⟨u', hu', le_trans hle' hle₁⟩

/-- C7: every entry of the table built by `AlgorithmicSolver::new` stores
`(q · a)⁻¹` for some triple `(a, p, q)` drawn from the algorithm set and the
expanded pre/post move sets whose composite sequence `(q · a) · p` has the
entry's signature, and its metric is minimal among all such triples
producing that signature. -/
theorem C7_algorithmic_solver_minimality {S : Type} [DecidableEq S]
    (graph_name : String) (alg_set pre_moves post_moves : List MoveSequence)
    (signature : CubePermutation3 → S) (metric : MoveSequence → ℕ)
    (s : S) (m : MoveSequence)
    (hsolve : (AlgorithmicSolver.new graph_name alg_set pre_moves post_moves
        signature metric).solve s = some m) :
    (∃ a ∈ alg_set, ∃ p ∈ AlgorithmicSolver.real_moves pre_moves,
       ∃ q ∈ AlgorithmicSolver.real_moves post_moves,
        m = (q.op a).inverse ∧
        signature (CubePermutation3.from_move_sequence ((q.op a).op p)) = s) ∧
    (∀ a ∈ alg_set, ∀ p ∈ AlgorithmicSolver.real_moves pre_moves,
       ∀ q ∈ AlgorithmicSolver.real_moves post_moves,
        signature (CubePermutation3.from_move_sequence ((q.op a).op p)) = s →
        metric m ≤ metric ((q.op a).inverse)) := by
  have hsolve' : lookupKey s (AlgorithmicSolver.new graph_name alg_set pre_moves
      post_moves signature metric).node_info = some m := hsolve
  rw [AlgorithmicSolver.new_eq_triples] at hsolve'
  obtain ⟨hprov, hbound, _⟩ := AlgorithmicSolver.triple_fold_master signature metric
    (alg_set.bind (fun a => (AlgorithmicSolver.real_moves pre_moves).bind
      (fun p => (AlgorithmicSolver.real_moves post_moves).map (fun q => (a, p, q)))))
    []
  constructor
  · have hmem := lookupKey_mem hsolve'
    rcases hprov (s, m) hmem with ⟨x, hx, h1, h2⟩ | h1
    · simp only [List.mem_bind, List.mem_map] at hx
      obtain ⟨a, ha, p, hp, q, hq, hx'⟩ := hx
      refine ⟨a, ha, p, hp, q, hq, ?_, ?_⟩
      · have h2' : m = AlgorithmicSolver.entry_val x := h2
        rw [h2', ← hx']
        rfl
      · rw [← hx'] at h1
        exact h1.symm
    · exact absurd h1 (by simp)
  · intro a ha p hp q hq hsig
    have hx : (a, p, q) ∈ alg_set.bind (fun a =>
        (AlgorithmicSolver.real_moves pre_moves).bind
          (fun p => (AlgorithmicSolver.real_moves post_moves).map
            (fun q => (a, p, q)))) := by
      simp only [List.mem_bind, List.mem_map]
      exact ⟨a, ha, p, hp, q, hq, rfl⟩
    obtain ⟨v, hv, hvle⟩ := hbound (a, p, q) hx
    have hkey : AlgorithmicSolver.entry_sig signature (a, p, q) = s := hsig
    rw [hkey, hsolve'] at hv
    cases hv
    exact hvle

/-- Witness for C7 on a one-algorithm instance with empty pre/post sets and
a constant signature: the stored sequence for signature `0` is `U'`,
realised by the triple `(U, ⟨⟩, ⟨⟩)`. -/
theorem C7_algorithmic_solver_minimality_witness :
    (∃ a ∈ [(⟨[c3_move_U]⟩ : MoveSequence)],
       ∃ p ∈ AlgorithmicSolver.real_moves [],
       ∃ q ∈ AlgorithmicSolver.real_moves [],
        (⟨[c3_move_Ui]⟩ : MoveSequence) = (q.op a).inverse ∧
        (fun (_ : CubePermutation3) => (0:ℕ))
          (CubePermutation3.from_move_sequence ((q.op a).op p)) = 0) ∧
    (∀ a ∈ [(⟨[c3_move_U]⟩ : MoveSequence)],
       ∀ p ∈ AlgorithmicSolver.real_moves [],
       ∀ q ∈ AlgorithmicSolver.real_moves [],
        (fun (_ : CubePermutation3) => (0:ℕ))
          (CubePermutation3.from_move_sequence ((q.op a).op p)) = 0 →
        stm_metric ⟨[c3_move_Ui]⟩ ≤ stm_metric ((q.op a).inverse)) :=
  C7_algorithmic_solver_minimality "witness" [⟨[c3_move_U]⟩] [] []
    (fun _ => 0) stm_metric 0 ⟨[c3_move_Ui]⟩ rfl

/-! ### Claim C4: the Roux driver's handling of failed steps -/

namespace Solve

/-- `solve.rs` `ActionReason`. -/
inductive ActionReason : Type where
  | Solve
  | Shuffle
  | SolveStep (step_name : String)
  | Intuitive

mutual

/-- `solve.rs` `Action`. -/
inductive Action : Type where
  | mk (reason : ActionReason) (description : Option String) (steps : ActionSteps)

/-- `solve.rs` `ActionSteps`. -/
inductive ActionSteps : Type where
  | Move (mv : Move)
  | Sequence (actions : List Action)

end

def Action.reason : Action → ActionReason
  | .mk r _ _ => r

def Action.description : Action → Option String
  | .mk _ d _ => d

def Action.steps : Action → ActionSteps
  | .mk _ _ st => st

mutual

/-- `solve.rs` `ActionSteps::move_sequence`: flatten the action tree into
the sequence of moves it performs. -/
def ActionSteps.move_sequence : ActionSteps → MoveSequence
  | ActionSteps.Move mv => ⟨[mv]⟩
  | ActionSteps.Sequence actions => ⟨actionsMoves actions⟩

/-- The concatenated moves of a list of actions. -/
def actionsMoves : List Action → List Move
  | [] => []
  | Action.mk _ _ st :: rest => (ActionSteps.move_sequence st).moves ++ actionsMoves rest

end

end Solve

/-- The `add_step` closure of `roux.rs` `solve`, as a state transformer on
(current permutation, accumulated steps).  A step returning `None` makes the
closure return `None` via `?`, but each call site discards that result, so
the state is simply left unchanged and execution continues. -/
def roux_add_step (f : CubePermutation3 → Option Solve.Action)
    (st : CubePermutation3 × List Solve.Action) :
    CubePermutation3 × List Solve.Action :=
  match f st.1 with
  | none => st
  | some step =>
      ((CubePermutation3.from_move_sequence step.steps.move_sequence).op st.1,
        st.2 ++ [step])

/-- `roux.rs` `solve`, with the ten step functions
(`first_edge_action`, …, `l4e_action`) abstracted as the pipeline list:
run `add_step` for each and unconditionally return the Roux `Action`. -/
def roux_solve_with (pipeline : List (CubePermutation3 → Option Solve.Action))
    (permutation : CubePermutation3) : Option Solve.Action :=
  some (Solve.Action.mk Solve.ActionReason.Solve (some "Roux method")
    (Solve.ActionSteps.Sequence
      (pipeline.foldl (fun st f => roux_add_step f st) (permutation, [])).2))

/-- C4 is refuted by the source: when a pipeline step returns `None` on the
state it is queried at, `roux::solve` does not abandon the pipeline or
report failure; the failed step is silently skipped (its `Option` result is
discarded at the call site), the remaining steps still run, and the driver
unconditionally returns a successful Roux `Action`. -/
theorem C4_roux_solve_ignores_step_failure
    (pre post : List (CubePermutation3 → Option Solve.Action))
    (f : CubePermutation3 → Option Solve.Action) (p : CubePermutation3)
    (hfail : f (pre.foldl (fun st g => roux_add_step g st) (p, [])).1 = none) :
    roux_solve_with (pre ++ f :: post) p = roux_solve_with (pre ++ post) p ∧
    ∃ actions, roux_solve_with (pre ++ f :: post) p =
      some (Solve.Action.mk Solve.ActionReason.Solve (some "Roux method")
        (Solve.ActionSteps.Sequence actions)) := by
  have hskip0 : ∀ st : CubePermutation3 × List Solve.Action, f st.1 = none →
      roux_add_step f st = st := by
    intro st h
    unfold roux_add_step
    rw [h]
  have hskip : roux_add_step f (pre.foldl (fun st g => roux_add_step g st) (p, [])) =
      pre.foldl (fun st g => roux_add_step g st) (p, []) :=
    hskip0 _ hfail
  constructor
  · unfold roux_solve_with
    rw [List.foldl_append, List.foldl_append, List.foldl_cons, hskip]
  · exact ⟨_, rfl⟩

/-- Witness for C4's refutation: a pipeline consisting of a single always-
failing step still produces a successful Roux action on the identity cube. -/
theorem C4_roux_solve_ignores_step_failure_witness :
    roux_solve_with ([] ++ (fun _ => none) :: []) CubePermutation3.identity =
      roux_solve_with ([] ++ []) CubePermutation3.identity ∧
    ∃ actions, roux_solve_with ([] ++ (fun _ => none) :: [])
        CubePermutation3.identity =
      some (Solve.Action.mk Solve.ActionReason.Solve (some "Roux method")
        (Solve.ActionSteps.Sequence actions)) :=
  C4_roux_solve_ignores_step_failure [] [] (fun _ => none)
    CubePermutation3.identity rfl
